import Mathlib

/-!
# Verification of the go-farkle solver core

A shallow embedding of the dice kernel, scoring kernel, state model, action
model, action selection and state-space enumerator of the `go-farkle`
repository, together with proofs of the specification claims about them.

Machine integers (`uint8`, `uint16`, `int`) are embedded as `Nat` with
explicit wrap-around (`% 256`) at the points where the Go code can overflow.
Go's `float64` probabilities and win-probability vectors are embedded as
exact rationals (`ℚ`); the algorithms on them are pure arithmetic.
Functions that `panic` in Go on invariant violations are totalized; every
theorem about them carries the hypotheses under which the Go code does not
panic.
-/

set_option maxRecDepth 20000

/-! ## Dice kernel (dice.go)

`Roll` is an unordered multiset of dice, represented as a count array of
length `numSides + 1 = 7` whose index 0 is unused, mirroring
`type Roll [numSides + 1]uint8`.
-/

/-- `const numSides = 6` from dice.go. -/
def numSides : Nat := 6

/-- `const MaxNumDice = 6` from dice.go. -/
def MaxNumDice : Nat := 6

/-- A roll: a length-7 array of per-face counts (index 0 unused). -/
abbrev Roll := List Nat

/-- The all-zero count array (the empty roll, Go's zero `Roll` value). -/
def emptyRoll : Roll := List.replicate (numSides + 1) 0

/-- `roll[die]++`: increment one face count. -/
def addDie (r : Roll) (die : Nat) : Roll := r.set die (r.getD die 0 + 1)

/-- `func NewRoll(dice ...uint8) Roll` from dice.go: build the count array
by incrementing one slot per die.  (Go panics on a die outside 1..6; all
uses below pass valid dice.) -/
def NewRoll (dice : List Nat) : Roll := dice.foldl addDie emptyRoll

/-- `func RepeatedRoll(die, n uint8) Roll` from dice.go. -/
def RepeatedRoll (die n : Nat) : Roll := emptyRoll.set die n

/-- `func CombineRolls(rolls ...Roll) Roll` from dice.go: pointwise sum of
the count arrays. -/
def CombineRolls (rolls : List Roll) : Roll :=
  rolls.foldl (fun acc r => List.zipWith (· + ·) acc r) emptyRoll

/-- `func SubtractRolls(a, b Roll) Roll` from dice.go: pointwise difference.
(Go panics when `b[die] > a[die]`; `Nat` truncated subtraction agrees with
Go on every non-panicking input.) -/
def SubtractRolls (a b : Roll) : Roll := List.zipWith (· - ·) a b

/-- `func (r Roll) NumDice() uint8` from dice.go: total count of dice. -/
def NumDice (r : Roll) : Nat := r.sum

/-- `func makeRolls(nDice int) []Roll` from dice.go: all `6^n` ordered
outcomes of `n` dice, each recorded as its count array. -/
def makeRolls : Nat → List Roll
  | 0 => [emptyRoll]
  | n + 1 =>
    (makeRolls n).flatMap fun roll =>
      (List.range numSides).map fun i => CombineRolls [roll, NewRoll [i + 1]]

/-- The distinct rolls of `n` dice, in the order the grouping of
`makeWeightedRolls` retains them.  (Go groups via a hash map whose
iteration order is arbitrary; every property proved below is invariant
under the order within one size.) -/
def distinctRolls (n : Nat) : List Roll := (makeRolls n).dedup

/-- `func makeWeightedRolls(nDice int) []WeightedRoll` from dice.go: the
distinct rolls of `n` dice, each with the multiplicity of its ordered
outcomes divided by the total number `6^n` of ordered outcomes. -/
def makeWeightedRolls (n : Nat) : List (Roll × ℚ) :=
  (distinctRolls n).map fun r =>
    (r, ((makeRolls n).count r : ℚ) / ((makeRolls n).length : ℚ))

/-- `var allRolls` from dice.go, flattened: the distinct rolls of every
size 0..6 concatenated in size order; a roll's ID is its position. -/
def allRollsList : List Roll :=
  (List.range (MaxNumDice + 1)).flatMap distinctRolls

/-- `var nDistinctRolls` from dice.go: total number of distinct rolls of
sizes 0..6. -/
def nDistinctRolls : Nat :=
  ((List.range (MaxNumDice + 1)).map fun n => (distinctRolls n).length).sum

/-- `var rollToID` from dice.go: the sequential ID of a roll (its position
in the size-ordered enumeration).  The `BEq` instance is the one derived
from decidable equality of count arrays. -/
def rollToID (r : Roll) : Nat := @List.indexOf Roll instBEqOfDecidableEq r allRollsList

/-- `var rollsByID` from dice.go: the roll with a given ID. -/
def rollsByID (id : Nat) : Roll := allRollsList.getD id emptyRoll

/-- `var rollNumDice` from dice.go: number of dice of the roll with a given
ID. -/
def rollNumDice (id : Nat) : Nat := NumDice (rollsByID id)

/-! ### Basic facts about rolls -/

theorem emptyRoll_length : emptyRoll.length = numSides + 1 := rfl

theorem addDie_length (r : Roll) (d : Nat) : (addDie r d).length = r.length := by
  simp [addDie]

theorem sum_set_nat : ∀ (l : List Nat) (i v : Nat), i < l.length →
    (l.set i v).sum + l.getD i 0 = l.sum + v := by
  intro l
  induction l with
  | nil => intro i v h; simp at h
  | cons a t ih =>
    intro i v h
    cases i with
    | zero => simp [Nat.add_comm, Nat.add_left_comm, Nat.add_assoc]
    | succ j =>
      have := ih j v (by simpa using h)
      show (a :: t.set j v).sum + t.getD j 0 = (a :: t).sum + v
      simp only [List.sum_cons]
      omega

theorem set_self_eq (l : List Nat) (i : Nat) (h : i < l.length) :
    l.set i (l.getD i 0) = l := by
  apply List.ext_getElem
  · simp
  · intro j h1 h2
    rcases eq_or_ne j i with rfl | hne
    · simp [List.getD_eq_getElem?_getD, List.getElem?_eq_getElem h]
    · simp [List.getElem_set_ne (Ne.symm hne)]

theorem addDie_sum (r : Roll) (d : Nat) (hd : d < r.length) :
    (addDie r d).sum = r.sum + 1 := by
  have h := sum_set_nat r d (r.getD d 0 + 1) hd
  have hset : (r.set d (r.getD d 0 + 1)).getD d 0 = r.getD d 0 + 1 := by
    simp [List.getD_eq_getElem?_getD, List.getElem?_set_self, hd]
  rw [addDie]
  omega

theorem addDie_getD_ne (r : Roll) (d j : Nat) (hne : j ≠ d) :
    (addDie r d).getD j 0 = r.getD j 0 := by
  simp [addDie, List.getD_eq_getElem?_getD, List.getElem?_set_ne (Ne.symm hne)]

theorem addDie_getD_self (r : Roll) (d : Nat) (hd : d < r.length) :
    (addDie r d).getD d 0 = r.getD d 0 + 1 := by
  simp [addDie, List.getD_eq_getElem?_getD, List.getElem?_set_self,
    hd, List.getElem?_eq_getElem hd]

theorem zipWith_add_zero_left (l : List Nat) (m : Nat) (h : l.length = m) :
    List.zipWith (· + ·) (List.replicate m 0) l = l := by
  induction l generalizing m with
  | nil => cases m <;> simp
  | cons a t ih =>
    cases m with
    | zero => simp at h
    | succ k => simpa [List.replicate_succ] using ih k (by simpa using h)

theorem combine_single (r : Roll) (d : Nat) (hr : r.length = numSides + 1) :
    CombineRolls [r, NewRoll [d]] = addDie r d := by
  show List.zipWith (· + ·) (List.zipWith (· + ·) emptyRoll r) (NewRoll [d]) = addDie r d
  rw [show (emptyRoll : List Nat) = List.replicate (numSides + 1) 0 from rfl,
    zipWith_add_zero_left r (numSides + 1) hr]
  have hnew : NewRoll [d] = emptyRoll.set d 1 := by
    show addDie emptyRoll d = emptyRoll.set d 1
    rw [addDie]
    congr 1
    rcases Nat.lt_or_ge d (numSides + 1) with hd | hd
    · simp [emptyRoll, List.getD_eq_getElem?_getD, List.getElem?_replicate, hd]
    · rw [List.getD_eq_default]
      simp [emptyRoll]
      omega
  rw [hnew]
  apply List.ext_getElem
  · simp [addDie, emptyRoll, hr]
  · intro i hi1 hi2
    have hir : i < r.length := by
      simpa [addDie] using hi2
    rcases eq_or_ne i d with rfl | hid
    · have : i < emptyRoll.length := by simpa [emptyRoll, hr] using hir
      simp [addDie, List.getElem_zipWith, List.getElem_set_self,
        List.getD_eq_getElem?_getD, List.getElem?_eq_getElem hir, emptyRoll]
    · simp [addDie, List.getElem_zipWith, List.getElem_set_ne (Ne.symm hid),
        emptyRoll, List.getElem_replicate]

/-- Characterization of the ordered-outcome enumeration: membership in
`makeRolls n` is exactly being a length-7 count array with unused index 0
and `n` dice in total. -/
theorem mem_makeRolls_iff (n : Nat) (r : Roll) :
    r ∈ makeRolls n ↔ r.length = numSides + 1 ∧ r.getD 0 0 = 0 ∧ r.sum = n := by
  induction n generalizing r with
  | zero =>
    constructor
    · intro h
      simp [makeRolls] at h
      subst h
      refine ⟨rfl, rfl, by simp [emptyRoll]⟩
    · rintro ⟨hlen, _, hsum⟩
      have : r = emptyRoll := by
        have hz : ∀ x ∈ r, x = 0 := by
          intro x hx
          have := List.le_sum_of_mem hx
          omega
        apply List.ext_getElem
        · simp [emptyRoll, hlen]
        · intro i h1 h2
          simp [emptyRoll, List.getElem_replicate, hz _ (List.getElem_mem h1)]
      simp [makeRolls, this]
  | succ n ih =>
    constructor
    · intro h
      simp only [makeRolls, List.mem_flatMap, List.mem_map, List.mem_range] at h
      obtain ⟨r', hr', i, hi, rfl⟩ := h
      obtain ⟨hlen, h0, hsum⟩ := (ih r').1 hr'
      rw [combine_single r' (i + 1) hlen]
      refine ⟨by rw [addDie_length, hlen], ?_, ?_⟩
      · rw [addDie_getD_ne r' (i + 1) 0 (by omega), h0]
      · rw [addDie_sum r' (i + 1) (by rw [hlen]; simp [numSides] at hi ⊢; omega), hsum]
    · rintro ⟨hlen, h0, hsum⟩
      -- find a positive face count and peel one die off
      have hex : ∃ i, 0 < i ∧ i < numSides + 1 ∧ 0 < r.getD i 0 := by
        by_contra hno
        push_neg at hno
        have hzero : ∀ i (h : i < r.length), r.get ⟨i, h⟩ = 0 := by
          intro i hilt
          have hget : r.getD i 0 = r.get ⟨i, hilt⟩ := by
            simp [List.getD_eq_getElem?_getD, List.getElem?_eq_getElem hilt]
          rcases Nat.eq_zero_or_pos i with hi0 | hipos
          · subst hi0; rw [← hget]; exact h0
          · have := hno i hipos (by omega)
            omega
        have : r.sum = 0 := by
          apply List.sum_eq_zero
          intro x hx
          obtain ⟨⟨i, hilt⟩, rfl⟩ := List.mem_iff_get.1 hx
          exact hzero i hilt
        omega
      obtain ⟨i, hipos, hilt, hcount⟩ := hex
      have hir : i < r.length := by omega
      set r' : Roll := r.set i (r.getD i 0 - 1) with hr'
      have hlen' : r'.length = numSides + 1 := by simp [hr', hlen]
      have hgd' : r'.getD i 0 = r.getD i 0 - 1 := by
        simp [hr', List.getD_eq_getElem?_getD, List.getElem?_set_self, hir]
      have hback : addDie r' i = r := by
        rw [addDie, hgd']
        have : r.getD i 0 - 1 + 1 = r.getD i 0 := by omega
        rw [this, hr', List.set_set, set_self_eq r i hir]
      simp only [makeRolls, List.mem_flatMap, List.mem_map, List.mem_range]
      refine ⟨r', ?_, i - 1, by simp only [numSides] at hilt ⊢; omega, ?_⟩
      · apply (ih r').2
        refine ⟨hlen', ?_, ?_⟩
        · rw [hr']
          have hne : i ≠ (0 : Nat) := by omega
          rw [List.getD_eq_getElem?_getD, List.getElem?_set_ne hne,
            ← List.getD_eq_getElem?_getD]
          exact h0
        · have hsum' : r.sum = r'.sum + 1 := by
            have := addDie_sum r' i (by rw [hlen']; omega)
            rw [hback] at this
            omega
          omega
      · rw [combine_single r' (i - 1 + 1) hlen']
        have : i - 1 + 1 = i := by omega
        rw [this, hback]

theorem mem_makeRolls_numDice {n : Nat} {r : Roll} (h : r ∈ makeRolls n) :
    NumDice r = n := ((mem_makeRolls_iff n r).1 h).2.2

theorem mem_distinctRolls_iff (n : Nat) (r : Roll) :
    r ∈ distinctRolls n ↔ r ∈ makeRolls n := List.mem_dedup

theorem makeRolls_length (n : Nat) : (makeRolls n).length = numSides ^ n := by
  induction n with
  | zero => simp [makeRolls]
  | succ n ih =>
    simp only [makeRolls, List.length_flatMap, List.length_map, List.length_range]
    have hconst : (List.length ∘ fun roll : Roll =>
        (List.range numSides).map fun i => CombineRolls [roll, NewRoll [i + 1]]) =
        fun _ => numSides := by
      funext r
      simp
    rw [hconst, List.map_const', List.sum_replicate, smul_eq_mul, ih, pow_succ]

/-! ### Counting the distinct rolls

The distinct rolls of `n` dice are in bijection with multisets of size `n`
over the six faces, so each size contributes `Nat.multichoose 6 n` IDs.
-/

theorem roll_explicit (r : Roll) (h : r.length = numSides + 1) :
    ∃ a b c d e f g, r = [a, b, c, d, e, f, g] := by
  match r, h with
  | [a, b, c, d, e, f, g], _ => exact ⟨a, b, c, d, e, f, g, rfl⟩

/-- The multiset over `Fin 6` described by a count array. -/
def toSymFun (r : Roll) : Multiset (Fin 6) :=
  ∑ i : Fin 6, Multiset.replicate (r.getD (i.1 + 1) 0) i

theorem count_toSymFun (r : Roll) (j : Fin 6) :
    (toSymFun r).count j = r.getD (j.1 + 1) 0 := by
  rw [toSymFun, Multiset.count_sum']
  rw [Finset.sum_eq_single j]
  · simp [Multiset.count_replicate]
  · intro b _ hbj
    simp [Multiset.count_replicate, hbj]
  · intro h
    exact absurd (Finset.mem_univ j) h
theorem card_toSymFun (r : Roll) (hlen : r.length = numSides + 1)
    (h0 : r.getD 0 0 = 0) : Multiset.card (toSymFun r) = r.sum := by
  obtain ⟨a, b, c, d, e, f, g, rfl⟩ := roll_explicit r hlen
  simp only [List.getD_cons_zero] at h0
  subst h0
  rw [toSymFun, Fin.sum_univ_six]
  simp only [Multiset.card_add, Multiset.card_replicate]
  show List.getD _ ((0 : Fin 6).1 + 1) 0 + List.getD _ ((1 : Fin 6).1 + 1) 0
      + List.getD _ ((2 : Fin 6).1 + 1) 0 + List.getD _ ((3 : Fin 6).1 + 1) 0
      + List.getD _ ((4 : Fin 6).1 + 1) 0 + List.getD _ ((5 : Fin 6).1 + 1) 0
      = List.sum _
  show b + c + d + e + f + g = _
  simp only [List.sum_cons, List.sum_nil]
  omega

/-- The count array of a multiset over `Fin 6`. -/
def ofSymFun (m : Multiset (Fin 6)) : Roll :=
  0 :: (List.finRange 6).map fun i => m.count i

theorem ofSymFun_length (m : Multiset (Fin 6)) :
    (ofSymFun m).length = numSides + 1 := by
  simp [ofSymFun, numSides]

theorem ofSymFun_explicit (m : Multiset (Fin 6)) :
    ofSymFun m = [0, m.count 0, m.count 1, m.count 2, m.count 3,
      m.count 4, m.count 5] := by
  rfl

theorem toSymFun_ofSymFun (m : Multiset (Fin 6)) :
    toSymFun (ofSymFun m) = m := by
  apply Multiset.ext.2
  intro j
  rw [count_toSymFun, ofSymFun_explicit]
  fin_cases j <;> rfl

theorem ofSymFun_toSymFun (r : Roll) (hlen : r.length = numSides + 1)
    (h0 : r.getD 0 0 = 0) : ofSymFun (toSymFun r) = r := by
  obtain ⟨a, b, c, d, e, f, g, rfl⟩ := roll_explicit r hlen
  simp only [List.getD_cons_zero] at h0
  subst h0
  rw [ofSymFun_explicit]
  have k0 : (toSymFun [0, b, c, d, e, f, g]).count 0 = b := by
    rw [count_toSymFun]; rfl
  have k1 : (toSymFun [0, b, c, d, e, f, g]).count 1 = c := by
    rw [count_toSymFun]; rfl
  have k2 : (toSymFun [0, b, c, d, e, f, g]).count 2 = d := by
    rw [count_toSymFun]; rfl
  have k3 : (toSymFun [0, b, c, d, e, f, g]).count 3 = e := by
    rw [count_toSymFun]; rfl
  have k4 : (toSymFun [0, b, c, d, e, f, g]).count 4 = f := by
    rw [count_toSymFun]; rfl
  have k5 : (toSymFun [0, b, c, d, e, f, g]).count 5 = g := by
    rw [count_toSymFun]; rfl
  rw [k0, k1, k2, k3, k4, k5]

theorem sum_ofSymFun (m : Multiset (Fin 6)) :
    (ofSymFun m).sum = Multiset.card m := by
  rw [ofSymFun_explicit]
  have h := Multiset.sum_count_eq_card (s := (Finset.univ : Finset (Fin 6)))
    (m := m) (fun a _ => Finset.mem_univ a)
  rw [Fin.sum_univ_six] at h
  simp only [List.sum_cons, List.sum_nil]
  omega

/-- The rolls of `n` dice are exactly the multisets of size `n` over six
faces. -/
def rollSymEquiv (n : Nat) :
    { r : Roll // r ∈ (makeRolls n).toFinset } ≃ Sym (Fin 6) n where
  toFun r :=
    ⟨toSymFun r.1, by
      have hm := (mem_makeRolls_iff n r.1).1 (List.mem_toFinset.1 r.2)
      rw [card_toSymFun r.1 hm.1 hm.2.1, hm.2.2]⟩
  invFun s :=
    ⟨ofSymFun s.1, by
      apply List.mem_toFinset.2
      apply (mem_makeRolls_iff n (ofSymFun s.1)).2
      exact ⟨ofSymFun_length s.1, rfl, by rw [sum_ofSymFun, s.2]⟩⟩
  left_inv r := by
    have hm := (mem_makeRolls_iff n r.1).1 (List.mem_toFinset.1 r.2)
    exact Subtype.ext (ofSymFun_toSymFun r.1 hm.1 hm.2.1)
  right_inv s := Subtype.ext (toSymFun_ofSymFun s.1)

theorem distinctRolls_length (n : Nat) :
    (distinctRolls n).length = Nat.multichoose 6 n := by
  rw [distinctRolls, ← List.card_toFinset, ← Fintype.card_coe,
    Fintype.card_congr (rollSymEquiv n), Sym.card_sym_fin_eq_multichoose]

theorem nDistinctRolls_eq : nDistinctRolls = 924 := by
  have h : nDistinctRolls =
      ((List.range 7).map fun n => (distinctRolls n).length).sum := rfl
  rw [h, show List.range 7 = [0, 1, 2, 3, 4, 5, 6] from rfl]
  simp only [List.map_cons, List.map_nil, List.sum_cons, List.sum_nil,
    distinctRolls_length, Nat.multichoose_eq]
  decide

/-! ### The sequential roll IDs -/

theorem mem_allRollsList_iff (r : Roll) :
    r ∈ allRollsList ↔
      r.length = numSides + 1 ∧ r.getD 0 0 = 0 ∧ r.sum ≤ MaxNumDice := by
  simp only [allRollsList, List.mem_flatMap, List.mem_range,
    mem_distinctRolls_iff, mem_makeRolls_iff]
  constructor
  · rintro ⟨n, hn, hlen, h0, hsum⟩
    exact ⟨hlen, h0, by omega⟩
  · rintro ⟨hlen, h0, hsum⟩
    exact ⟨r.sum, by omega, hlen, h0, rfl⟩

theorem allRollsList_nodup : allRollsList.Nodup := by
  rw [allRollsList, List.nodup_flatMap]
  refine ⟨fun n _ => (makeRolls n).nodup_dedup, ?_⟩
  rw [List.pairwise_iff_getElem]
  intro i j hi hj hij
  simp only [Function.onFun, List.getElem_range]
  intro r hri hrj
  have h1 := mem_makeRolls_numDice ((mem_distinctRolls_iff _ _).1 hri)
  have h2 := mem_makeRolls_numDice ((mem_distinctRolls_iff _ _).1 hrj)
  omega

theorem allRollsList_length : allRollsList.length = nDistinctRolls := by
  simp only [allRollsList, nDistinctRolls, List.length_flatMap]
  rfl

theorem rollToID_lt_length (r : Roll) (h : r ∈ allRollsList) :
    rollToID r < allRollsList.length :=
  List.indexOf_lt_length.2 h

theorem rollsByID_rollToID (r : Roll) (h : r ∈ allRollsList) :
    rollsByID (rollToID r) = r := by
  have hlt := rollToID_lt_length r h
  unfold rollsByID
  rw [List.getD_eq_getElem?_getD, List.getElem?_eq_getElem hlt]
  exact List.getElem_indexOf hlt

theorem rollToID_rollsByID (i : Nat) (h : i < nDistinctRolls) :
    rollToID (rollsByID i) = i := by
  have hlt : i < allRollsList.length := by rw [allRollsList_length]; exact h
  unfold rollsByID
  rw [List.getD_eq_getElem?_getD, List.getElem?_eq_getElem hlt]
  simp only [Option.getD_some]
  exact List.indexOf_getElem allRollsList_nodup i hlt

theorem rollToID_lt (r : Roll) (h : r ∈ allRollsList) :
    rollToID r < nDistinctRolls := by
  rw [← allRollsList_length]
  exact rollToID_lt_length r h

theorem distinctRolls_zero : distinctRolls 0 = [emptyRoll] := by
  rw [distinctRolls]
  show ([emptyRoll] : List Roll).dedup = [emptyRoll]
  rw [List.dedup_cons_of_not_mem (by simp), List.dedup_nil]

theorem range_seven : List.range (MaxNumDice + 1) = 0 :: [1, 2, 3, 4, 5, 6] := rfl

theorem allRollsList_head :
    ∃ t, allRollsList = emptyRoll :: t := by
  have h : allRollsList = (0 :: [1, 2, 3, 4, 5, 6]).flatMap distinctRolls := by
    unfold allRollsList
    rw [range_seven]
  rw [h, List.flatMap_cons, distinctRolls_zero, List.singleton_append]
  exact ⟨_, rfl⟩

theorem rollToID_emptyRoll : rollToID emptyRoll = 0 := by
  obtain ⟨t, ht⟩ := allRollsList_head
  unfold rollToID
  rw [ht, List.indexOf_cons_self]

theorem rollToID_pos_of_ne_empty (r : Roll) (h : r ≠ emptyRoll) :
    0 < rollToID r := by
  obtain ⟨t, ht⟩ := allRollsList_head
  unfold rollToID
  rw [ht, List.indexOf_cons_ne t (Ne.symm h)]
  exact Nat.succ_pos _

theorem rollsByID_zero : rollsByID 0 = emptyRoll := by
  obtain ⟨t, ht⟩ := allRollsList_head
  unfold rollsByID
  rw [ht]
  rfl

theorem rollNumDice_zero : rollNumDice 0 = 0 := by
  unfold rollNumDice
  rw [rollsByID_zero]
  rfl

/-! ## Scoring kernel (dice.go, scoring section)

`enumeratePossibleTricks` recurses on the remainder after removing one
trick.  Every trick removed holds at least one die, so the recursion depth
is bounded by the number of dice; the Lean embedding makes this explicit
with a fuel parameter set to `NumDice roll + 1`, which the recursion never
exhausts. -/

/-- `const incr = 50` from dice.go. -/
def incr : Nat := 50

/-- `const scoreToWin = 10000 / incr` from dice.go. -/
def scoreToWin : Nat := 10000 / incr

inductive TrickType where
  | Single1
  | Single5
  | Three1s
  | Three2s
  | Three3s
  | Three4s
  | Three5s
  | Three6s
  | FourOfAKind
  | FiveOfAKind
  | SixOfAKind
  | Straight
  | ThreePairs
  | FourOfAKindPlusPair
  | TwoTriplets
deriving DecidableEq

/-- `var trickScores` from dice.go (all values scaled by `incr`). -/
def trickScores : TrickType → Nat
  | .Single1 => 100 / incr
  | .Single5 => 50 / incr
  | .Three1s => 300 / incr
  | .Three2s => 200 / incr
  | .Three3s => 300 / incr
  | .Three4s => 400 / incr
  | .Three5s => 500 / incr
  | .Three6s => 600 / incr
  | .FourOfAKind => 1000 / incr
  | .FiveOfAKind => 2000 / incr
  | .SixOfAKind => 3000 / incr
  | .Straight => 1500 / incr
  | .ThreePairs => 1500 / incr
  | .FourOfAKindPlusPair => 1500 / incr
  | .TwoTriplets => 2500 / incr

/-- `var threeOfAKind` from dice.go.  A Go map lookup of a missing key
yields the zero value `Single1`; only keys 1..6 are ever used. -/
def threeOfAKind : Nat → TrickType
  | 1 => .Three1s
  | 2 => .Three2s
  | 3 => .Three3s
  | 4 => .Three4s
  | 5 => .Three5s
  | 6 => .Three6s
  | _ => .Single1

/-- `var singles` from dice.go (zero value for missing keys). -/
def singles : Nat → TrickType
  | 5 => .Single5
  | _ => .Single1

/-- `type Trick struct { Type TrickType; Dice Roll }` from dice.go.
The field `Type` is renamed `Ty` (a Lean keyword). -/
structure Trick where
  Ty : TrickType
  Dice : Roll
deriving DecidableEq

/-- `func (t Trick) Score() uint8` from dice.go. -/
def Trick.Score (t : Trick) : Nat := trickScores t.Ty

/-- `func isStraight(roll Roll) bool` from dice.go. -/
def isStraight (roll : Roll) : Bool :=
  (List.range numSides).all fun i => roll.getD (i + 1) 0 == 1

/-- `func isThreePairs(roll Roll) bool` from dice.go. -/
def isThreePairs (roll : Roll) : Bool :=
  3 ≤ roll.countP (· == 2)

/-- `func isFourOfAKindPlusPair(roll Roll) bool` from dice.go. -/
def isFourOfAKindPlusPair (roll : Roll) : Bool :=
  (roll.any (· == 4)) && (roll.any (· == 2))

/-- `func isTwoTriplets(roll Roll) bool` from dice.go. -/
def isTwoTriplets (roll : Roll) : Bool :=
  2 ≤ roll.countP (· == 3)

/-- `func remainingTricks(roll Roll, trick Trick) [][]Trick` from dice.go,
parameterized by the recursive enumeration applied to the remainder. -/
def remainingTricks (enumFn : Roll → List (List Trick)) (roll : Roll)
    (trick : Trick) : List (List Trick) :=
  [[trick]] ++ (enumFn (SubtractRolls roll trick.Dice)).map fun ts => trick :: ts

/-- `func enumeratePossibleTricks(roll Roll) [][]Trick` from dice.go, with
explicit fuel. -/
def enumTricks : Nat → Roll → List (List Trick)
  | 0, _ => []
  | fuel + 1, roll =>
    let rem := remainingTricks (enumTricks fuel) roll
    ((List.range (numSides + 1)).flatMap fun die =>
      let count := roll.getD die 0
      (if 1 ≤ count ∧ (die = 1 ∨ die = 5) then
        rem { Ty := singles die, Dice := NewRoll [die] } else [])
      ++ (if 3 ≤ count then
        rem { Ty := threeOfAKind die, Dice := RepeatedRoll die count } else [])
      ++ (if 4 ≤ count then
        rem { Ty := .FourOfAKind, Dice := RepeatedRoll die count } else [])
      ++ (if 5 ≤ count then
        rem { Ty := .FiveOfAKind, Dice := RepeatedRoll die count } else [])
      ++ (if 6 ≤ count then
        [[{ Ty := .SixOfAKind, Dice := roll }]] else []))
    ++ (if isStraight roll then [[{ Ty := .Straight, Dice := roll }]]
      else if isThreePairs roll then [[{ Ty := .ThreePairs, Dice := roll }]]
      else if isFourOfAKindPlusPair roll then
        [[{ Ty := .FourOfAKindPlusPair, Dice := roll }]]
      else if isTwoTriplets roll then [[{ Ty := .TwoTriplets, Dice := roll }]]
      else [])

/-- `enumeratePossibleTricks` at its natural fuel. -/
def enumeratePossibleTricks (roll : Roll) : List (List Trick) :=
  enumTricks (NumDice roll + 1) roll

/-- The total score of one trick decomposition (the inner loop of
`CalculateScore`). -/
def trickSum (tricks : List Trick) : Nat :=
  tricks.foldl (fun score trick => score + trick.Score) 0

/-- `func CalculateScore(held Roll) uint8` from dice.go: best total score
over all decompositions.  (The Go `uint8` sums cannot wrap: every
decomposition of at most six dice scores at most 60.) -/
def CalculateScore (held : Roll) : Nat :=
  (enumeratePossibleTricks held).foldl
    (fun result tricks => max result (trickSum tricks)) 0

/-- `func potentialHolds(roll Roll) []Roll` from dice.go. -/
def potentialHolds (roll : Roll) : List Roll :=
  (enumeratePossibleTricks roll).map fun tricks =>
    CombineRolls (tricks.map fun t => t.Dice)

/-- `var rollIDToPotentialHolds` from dice.go, as a function of the roll
ID. -/
def rollIDToPotentialHolds (id : Nat) : List Roll :=
  potentialHolds (rollsByID id)

/-- `func IsFarkle(roll Roll) bool` from dice.go. -/
def IsFarkle (roll : Roll) : Bool :=
  (rollIDToPotentialHolds (rollToID roll)).isEmpty

/-- Whether a roll appears in some enumerated roll's potential holds (the
set of indices `var scoreCache` writes). -/
def isAchievableHold (h : Roll) : Bool :=
  allRollsList.any fun r => (potentialHolds r).contains h

/-- `var scoreCache` from dice.go: `CalculateScore` of the hold with the
given ID for every hold reachable from some enumerated roll, `0` (the Go
zero value) elsewhere. -/
def scoreCache (id : Nat) : Nat :=
  if isAchievableHold (rollsByID id) then CalculateScore (rollsByID id) else 0

/-! ## State model (gamestate.go / unnamed part_000) -/

/-- `const maxNumPlayers = 4`. -/
def maxNumPlayers : Nat := 4

/-- Modelled from the spec: the per-score-field bit width `numScoreBits`
used by `GameState.ID` and `calcNumDistinctStates`; its defining constant
is not among the provided sources.  The spec fixes `B = 8` bits per score
field (`id` layout in section 3), matching `numDistinctScoreBits = 8` in
dice.go. -/
def numScoreBits : Nat := 8

/-- `type GameState struct` from gamestate.go: round score, dice left to
roll, number of players and the length-4 score array (current player
first). -/
structure GameState where
  ScoreThisRound : Nat
  NumDiceToRoll : Nat
  NumPlayers : Nat
  PlayerScores : List Nat
deriving DecidableEq

/-- `func NewGameState(numPlayers int) GameState`. -/
def NewGameState (numPlayers : Nat) : GameState :=
  { ScoreThisRound := 0
    NumDiceToRoll := MaxNumDice
    NumPlayers := numPlayers
    PlayerScores := List.replicate maxNumPlayers 0 }

/-- `func (gs GameState) CurrentPlayerScore() uint8`. -/
def GameState.CurrentPlayerScore (gs : GameState) : Nat :=
  gs.PlayerScores.getD 0 0

/-- `func (gs GameState) IsGameOver() bool`. -/
def GameState.IsGameOver (gs : GameState) : Bool :=
  scoreToWin ≤ gs.CurrentPlayerScore

/-- `func (gs GameState) HighestScore() uint8`. -/
def GameState.HighestScore (gs : GameState) : Nat :=
  (gs.PlayerScores.take gs.NumPlayers).foldl
    (fun bestScore score => if bestScore < score then score else bestScore) 0

/-- `func (gs GameState) ID() int` from unnamed part_000: the bit-packed
state index.  (With `NumDiceToRoll ≥ 1`, as in every legal state, the Go
`uint8` subtraction `NumDiceToRoll - 1` agrees with `Nat` subtraction.) -/
def GameState.ID (gs : GameState) : Nat :=
  ((List.range gs.NumPlayers).foldl
    (fun idx i =>
      idx + (gs.PlayerScores.getD i 0) <<< ((gs.NumPlayers - i) * numScoreBits))
    ((gs.NumDiceToRoll - 1) <<< ((gs.NumPlayers + 1) * numScoreBits)))
  + gs.ScoreThisRound

/-- `func calcNumDistinctStates(numPlayers int) int` from unnamed
part_000. -/
def calcNumDistinctStates (numPlayers : Nat) : Nat :=
  MaxNumDice <<< ((numPlayers + 1) * numScoreBits)

/-! ## Action model (gametree.go) -/

/-- `type Action struct { HeldDiceID uint16; ContinueRolling bool }` from
gametree.go ("A zero Action is a Farkle"); named `GameAction` because
Mathlib already claims the name `Action`. -/
structure GameAction where
  HeldDiceID : Nat
  ContinueRolling : Bool
deriving DecidableEq

/-- The Go `uint8` saturating-add idiom used throughout gametree.go:
wrapping add followed by the overflow check `if newScore < old { 255 }`. -/
def addU8 (a b : Nat) : Nat :=
  let newScore := (a + b) % 256
  if newScore < a then 255 else newScore

/-- The score-rotation in `ApplyAction`:
`copy(scores[:n], scores[1:n]); scores[n-1] = final`, entries beyond `n`
untouched. -/
def rotateScores (scores : List Nat) (n final : Nat) : List Nat :=
  (List.range scores.length).map fun i =>
    if i + 1 < n then scores.getD (i + 1) 0
    else if i + 1 = n then final
    else scores.getD i 0

/-- `func ApplyAction(state GameState, action Action) GameState` from
gametree.go (lines 527-563).  (Go panics when the held dice exceed
`NumDiceToRoll`; the embedding is total and agrees with Go on every
non-panicking input.) -/
def ApplyAction (state : GameState) (action : GameAction) : GameState :=
  let trickScore := scoreCache action.HeldDiceID
  let s1 := { state with ScoreThisRound := addU8 state.ScoreThisRound trickScore }
  let s2 := if trickScore = 0 then { s1 with ScoreThisRound := 0 } else s1
  let numDiceHeld := rollNumDice action.HeldDiceID
  let s3 := { s2 with NumDiceToRoll := s2.NumDiceToRoll - numDiceHeld }
  let s4 := if s3.NumDiceToRoll = 0 then { s3 with NumDiceToRoll := MaxNumDice } else s3
  if action.ContinueRolling then s4
  else
    let final := addU8 (s4.PlayerScores.getD 0 0) s4.ScoreThisRound
    { s4 with
      PlayerScores := rotateScores s4.PlayerScores s4.NumPlayers final
      ScoreThisRound := 0
      NumDiceToRoll := MaxNumDice }

/-- `var rollIDToPotentialActions` from gametree.go: hold-or-stop actions
for every potential hold of the roll. -/
def rollIDToPotentialActions (id : Nat) : List GameAction :=
  (rollIDToPotentialHolds id).flatMap fun holdOption =>
    [{ HeldDiceID := rollToID holdOption, ContinueRolling := true },
     { HeldDiceID := rollToID holdOption, ContinueRolling := false }]

/-- `func unrotate(pWin [maxNumPlayers]float64, numPlayers uint8)` from
gametree.go, over exact rationals. -/
def unrotate (pWin : List ℚ) (numPlayers : Nat) : List ℚ :=
  (List.range maxNumPlayers).map fun i =>
    if i = 0 then pWin.getD (numPlayers - 1) 0
    else if i < numPlayers then pWin.getD (i - 1) 0
    else 0

/-- The in-loop rewrite in `SelectAction` and `recursiveEnumerateStates`:
with a saturated round score, `ContinueRolling` is approximated by a
stop. -/
def tweakAction (s : GameState) (a : GameAction) : GameAction :=
  if s.ScoreThisRound = 255 ∧ a.ContinueRolling then
    { HeldDiceID := a.HeldDiceID, ContinueRolling := false } else a

/-- The first-on-board legality rule shared by `SelectAction` and
`recursiveEnumerateStates`: with the current player not yet on the board,
a stop that banks less than `500/incr` is skipped. -/
def skipAction (s : GameState) (a : GameAction) (newState : GameState) : Bool :=
  (s.PlayerScores.getD 0 0 == 0) && (!a.ContinueRolling) &&
    (newState.PlayerScores.getD (s.NumPlayers - 1) 0 < 500 / incr)

/-- `func SelectAction(state GameState, rollID uint16, db DB)` from
gametree.go (lines 565-603), with the dense table abstracted as a function
from state IDs to win-probability vectors. -/
def SelectAction (state : GameState) (rollID : Nat) (db : Nat → List ℚ) :
    GameAction × List ℚ :=
  let potentialActions := rollIDToPotentialActions rollID
  let best := potentialActions.foldl
    (fun (best : GameAction × List ℚ) action0 =>
      let action := tweakAction state action0
      let newState := ApplyAction state action
      if skipAction state action newState then best
      else
        let pSub := db newState.ID
        let pSubtree :=
          if action.ContinueRolling then pSub else unrotate pSub state.NumPlayers
        if best.2.getD 0 0 < pSubtree.getD 0 0 then (action, pSubtree) else best)
    ({ HeldDiceID := 0, ContinueRolling := false }, List.replicate maxNumPlayers 0)
  if potentialActions.isEmpty then
    let newState := ApplyAction state best.1
    (best.1, unrotate (db newState.ID) state.NumPlayers)
  else best

/-- `func calcEndGameValue(state GameState) [maxNumPlayers]float64` from
gametree.go (lines 701-719), over exact rationals. -/
def calcEndGameValue (state : GameState) : List ℚ :=
  let winningScore := state.HighestScore
  let winners := (List.range state.NumPlayers).filter
    fun player => state.PlayerScores.getD player 0 == winningScore
  let p : ℚ := 1 / (winners.length : ℚ)
  (List.range maxNumPlayers).map fun i => if i ∈ winners then p else 0

/-! ## State-space enumerator (gametree.go, lines 888-942)

`recursiveEnumerateStates` is modelled as a fueled recursion over an
explicit traversal state: the depth map and the on-stack bitmask (both
keyed by `GameState.ID`, as in the source) and the sequence of `(depth,
state)` pairs yielded so far.  The consumer (`SortedGameStates`) never
cancels the iteration, so the `yield`-result plumbing is dropped. -/

structure EnumSt where
  depthMap : Nat → Nat
  inStack : Nat → Bool
  emitted : List (Nat × GameState)

/-- The per-roll actions the enumerator (and `SelectAction`) actually
expands: potential actions after the saturation tweak, with
first-on-board-illegal stops removed. -/
def legalActionsForRoll (s : GameState) (id : Nat) : List GameAction :=
  ((rollIDToPotentialActions id).map fun a => tweakAction s a).filter
    fun a => !skipAction s a (ApplyAction s a)

/-- The successor states the enumerator recurses into from `s`: for every
distinct roll of `NumDiceToRoll` dice, every legal action applied to `s`,
plus the farkle transition for rolls with no potential actions. -/
def childStates (s : GameState) : List GameState :=
  (distinctRolls s.NumDiceToRoll).flatMap fun wRoll =>
    (legalActionsForRoll s (rollToID wRoll)).map (fun a => ApplyAction s a)
    ++ (if (rollIDToPotentialActions (rollToID wRoll)).isEmpty then
        [ApplyAction s { HeldDiceID := 0, ContinueRolling := false }] else [])

/-- `func recursiveEnumerateStates` from gametree.go with explicit fuel:
terminal states report depth 0; already-finalized or on-stack states
return without recursing; otherwise all children are explored and the
state is finalized at `1 + max` child depth and emitted.  (The source
recursion needs no fuel — it terminates through the depth-map and
on-stack guards over the finite ID space; on fuel exhaustion the
embedding truncates by answering with the recorded depth, exactly the
early return the source performs once a state is finalized.) -/
def enumGo : Nat → GameState → EnumSt → Nat × EnumSt
  | 0, s, σ => (σ.depthMap s.ID, σ)
  | fuel + 1, s, σ =>
    if s.IsGameOver then (0, σ)
    else
      let gsID := s.ID
      if 0 < σ.depthMap gsID then (σ.depthMap gsID, σ)
      else if σ.inStack gsID then (0, σ)
      else
        let σ1 : EnumSt :=
          { σ with inStack := fun i => if i = gsID then true else σ.inStack i }
        let res := (childStates s).foldl
          (fun (acc : Nat × EnumSt) c =>
            let r := enumGo fuel c acc.2
            (max acc.1 r.1, r.2))
          (0, σ1)
        let depth := res.1 + 1
        (depth,
          { depthMap := fun i => if i = gsID then depth else res.2.depthMap i
            inStack := fun i => if i = gsID then false else res.2.inStack i
            emitted := res.2.emitted ++ [(depth, s)] })

/-- The empty traversal state `allGameStates` starts from. -/
def initEnumSt : EnumSt :=
  { depthMap := fun _ => 0, inStack := fun _ => false, emitted := [] }

/-- `func allGameStates` from gametree.go: the `(depth, state)` sequence
emitted from the initial state. -/
def allGameStatesList (numPlayers fuel : Nat) : List (Nat × GameState) :=
  (enumGo fuel (NewGameState numPlayers) initEnumSt).2.emitted

/-! ### Pointwise infrastructure for count arrays -/

theorem zipadd_getD (a b : Roll) (h : a.length = b.length) (i : Nat) :
    (List.zipWith (· + ·) a b).getD i 0 = a.getD i 0 + b.getD i 0 := by
  induction a generalizing b i with
  | nil =>
    cases b with
    | nil => simp
    | cons x xs => simp at h
  | cons x xs ih =>
    cases b with
    | nil => simp at h
    | cons y ys =>
      cases i with
      | zero => simp
      | succ j => simpa using ih ys (by simpa using h) j

theorem zipsub_getD (a b : Roll) (h : a.length = b.length) (i : Nat) :
    (SubtractRolls a b).getD i 0 = a.getD i 0 - b.getD i 0 := by
  rw [SubtractRolls]
  induction a generalizing b i with
  | nil =>
    cases b with
    | nil => simp
    | cons x xs => simp at h
  | cons x xs ih =>
    cases b with
    | nil => simp at h
    | cons y ys =>
      cases i with
      | zero => simp
      | succ j => simpa using ih ys (by simpa using h) j

theorem zip_add_sum (a b : List Nat) (h : a.length = b.length) :
    (List.zipWith (· + ·) a b).sum = a.sum + b.sum := by
  induction a generalizing b with
  | nil =>
    cases b with
    | nil => simp
    | cons x xs => simp at h
  | cons x xs ih =>
    cases b with
    | nil => simp at h
    | cons y ys =>
      simp only [List.zipWith_cons_cons, List.sum_cons, ih ys (by simpa using h)]
      omega

theorem getD_le_sum (r : List Nat) (i : Nat) : r.getD i 0 ≤ r.sum := by
  rcases Nat.lt_or_ge i r.length with h | h
  · rw [List.getD_eq_getElem?_getD, List.getElem?_eq_getElem h]
    exact List.le_sum_of_mem (List.getElem_mem h)
  · rw [List.getD_eq_default _ _ h]
    exact Nat.zero_le _

theorem sum_eq_getD_seven (r : Roll) (h : r.length = numSides + 1) :
    r.sum = r.getD 0 0 + r.getD 1 0 + r.getD 2 0 + r.getD 3 0 + r.getD 4 0
      + r.getD 5 0 + r.getD 6 0 := by
  obtain ⟨a, b, c, d, e, f, g, rfl⟩ := roll_explicit r h
  simp [List.sum_cons]
  omega

theorem emptyRoll_getD (i : Nat) : emptyRoll.getD i 0 = 0 := by
  rcases Nat.lt_or_ge i (numSides + 1) with h | h
  · simp [emptyRoll, List.getD_eq_getElem?_getD, List.getElem?_replicate, h]
  · rw [List.getD_eq_default]
    simpa [emptyRoll] using h

theorem foldl_zadd_props (rolls : List Roll) :
    ∀ acc : Roll, acc.length = numSides + 1 →
    (∀ r ∈ rolls, r.length = numSides + 1) →
    (rolls.foldl (fun a r => List.zipWith (· + ·) a r) acc).length = numSides + 1 ∧
    ∀ i, (rolls.foldl (fun a r => List.zipWith (· + ·) a r) acc).getD i 0 =
      acc.getD i 0 + (rolls.map fun r => r.getD i 0).sum := by
  induction rolls with
  | nil => intro acc hacc _; exact ⟨hacc, by simp⟩
  | cons r rest ih =>
    intro acc hacc hall
    have hr : r.length = numSides + 1 := hall r (by simp)
    have hnext : (List.zipWith (· + ·) acc r).length = numSides + 1 := by
      rw [List.length_zipWith, hacc, hr]
      simp
    obtain ⟨hlen, hget⟩ := ih (List.zipWith (· + ·) acc r) hnext
      (fun x hx => hall x (by simp [hx]))
    refine ⟨hlen, fun i => ?_⟩
    rw [List.foldl_cons, hget i, zipadd_getD acc r (by rw [hacc, hr]) i]
    simp only [List.map_cons, List.sum_cons]
    omega

theorem combineRolls_length (rolls : List Roll)
    (h : ∀ r ∈ rolls, r.length = numSides + 1) :
    (CombineRolls rolls).length = numSides + 1 :=
  (foldl_zadd_props rolls emptyRoll emptyRoll_length h).1

theorem combineRolls_getD (rolls : List Roll)
    (h : ∀ r ∈ rolls, r.length = numSides + 1) (i : Nat) :
    (CombineRolls rolls).getD i 0 = (rolls.map fun r => r.getD i 0).sum := by
  have := (foldl_zadd_props rolls emptyRoll emptyRoll_length h).2 i
  rw [CombineRolls, this, emptyRoll_getD]
  omega

theorem combineRolls_single (r : Roll) (h : r.length = numSides + 1) :
    CombineRolls [r] = r := by
  show List.zipWith (· + ·) emptyRoll r = r
  rw [show (emptyRoll : List Nat) = List.replicate (numSides + 1) 0 from rfl]
  exact zipWith_add_zero_left r (numSides + 1) h

theorem combineRolls_cons (r : Roll) (rest : List Roll)
    (hr : r.length = numSides + 1) (hrest : ∀ x ∈ rest, x.length = numSides + 1) :
    CombineRolls (r :: rest) = List.zipWith (· + ·) r (CombineRolls rest) := by
  have hall : ∀ x ∈ r :: rest, x.length = numSides + 1 := by
    intro x hx
    rcases List.mem_cons.1 hx with rfl | hx
    · exact hr
    · exact hrest x hx
  have hclen : (CombineRolls rest).length = numSides + 1 := combineRolls_length rest hrest
  apply List.ext_getElem
  · rw [combineRolls_length _ hall, List.length_zipWith, hr, hclen]
    simp
  · intro i h1 h2
    have hi : i < numSides + 1 := by rw [combineRolls_length _ hall] at h1; exact h1
    have hgd : ∀ (l : List Nat) (hl : i < l.length), l[i] = l.getD i 0 := by
      intro l hl
      simp [List.getD_eq_getElem?_getD, List.getElem?_eq_getElem hl]
    rw [hgd _ h1, hgd _ h2, combineRolls_getD _ hall i,
      zipadd_getD r (CombineRolls rest) (by rw [hr, hclen]) i,
      combineRolls_getD rest hrest i]
    simp

theorem numDice_combineRolls (rolls : List Roll)
    (h : ∀ r ∈ rolls, r.length = numSides + 1) :
    NumDice (CombineRolls rolls) = (rolls.map NumDice).sum := by
  induction rolls with
  | nil => simp [CombineRolls, NumDice, emptyRoll]
  | cons r rest ih =>
    have hr := h r (by simp)
    have hrest : ∀ x ∈ rest, x.length = numSides + 1 := fun x hx => h x (by simp [hx])
    rw [combineRolls_cons r rest hr hrest]
    show (List.zipWith (· + ·) r (CombineRolls rest)).sum = _
    rw [zip_add_sum r _ (by rw [hr, combineRolls_length rest hrest]),
      List.map_cons, List.sum_cons]
    have := ih hrest
    rw [NumDice] at this
    rw [this]
    rfl

/-! ### Shapes of trick dice -/

theorem newRoll_single (d : Nat) : NewRoll [d] = emptyRoll.set d 1 := by
  show addDie emptyRoll d = emptyRoll.set d 1
  rw [addDie, emptyRoll_getD]

theorem set_empty_length (d c : Nat) : (emptyRoll.set d c).length = numSides + 1 := by
  simp [emptyRoll]

theorem set_empty_getD_self (d c : Nat) (hd : d < numSides + 1) :
    (emptyRoll.set d c).getD d 0 = c := by
  have : d < emptyRoll.length := by rw [emptyRoll_length]; exact hd
  simp [List.getD_eq_getElem?_getD, List.getElem?_set_self, this]

theorem set_empty_getD_ne (d c j : Nat) (h : j ≠ d) :
    (emptyRoll.set d c).getD j 0 = 0 := by
  rw [List.getD_eq_getElem?_getD, List.getElem?_set_ne (Ne.symm h),
    ← List.getD_eq_getElem?_getD, emptyRoll_getD]

theorem set_empty_getD_le (d c j : Nat) :
    (emptyRoll.set d c).getD j 0 ≤ if j = d then c else 0 := by
  rcases eq_or_ne j d with rfl | h
  · rcases Nat.lt_or_ge j (numSides + 1) with hj | hj
    · rw [set_empty_getD_self j c hj, if_pos rfl]
    · rw [List.getD_eq_default, if_pos rfl]
      · exact Nat.zero_le _
      · rw [set_empty_length]; exact hj
  · rw [set_empty_getD_ne d c j h, if_neg h]

theorem set_empty_sum (d c : Nat) (hd : d < numSides + 1) :
    (emptyRoll.set d c).sum = c := by
  have h := sum_set_nat emptyRoll d c (by rw [emptyRoll_length]; exact hd)
  have h0 : (emptyRoll : List Nat).sum = 0 := by simp [emptyRoll]
  rw [emptyRoll_getD] at h
  omega

/-! ### Decomposition sums and fold bounds -/

theorem trickSum_shift (tricks : List Trick) :
    ∀ init : Nat,
      tricks.foldl (fun score trick => score + trick.Score) init =
        init + trickSum tricks := by
  induction tricks with
  | nil => intro init; simp [trickSum]
  | cons t ts ih =>
    intro init
    rw [trickSum, List.foldl_cons, List.foldl_cons, ih, ih (0 + t.Score)]
    omega

theorem trickSum_cons (t : Trick) (ts : List Trick) :
    trickSum (t :: ts) = t.Score + trickSum ts := by
  rw [trickSum, List.foldl_cons, trickSum_shift]
  omega

theorem trickSum_single (t : Trick) : trickSum [t] = t.Score := by
  rw [trickSum_cons, trickSum]
  simp

theorem foldl_max_ge_init (f : List Trick → Nat) :
    ∀ (l : List (List Trick)) (init : Nat),
      init ≤ l.foldl (fun result ts => max result (f ts)) init := by
  intro l
  induction l with
  | nil => intro init; simp
  | cons x xs ih =>
    intro init
    rw [List.foldl_cons]
    exact le_trans (le_max_left _ _) (ih _)

theorem foldl_max_ge_mem (f : List Trick → Nat) (l : List (List Trick))
    (D : List Trick) (h : D ∈ l) :
    ∀ init : Nat, f D ≤ l.foldl (fun result ts => max result (f ts)) init := by
  induction l with
  | nil => simp at h
  | cons x xs ih =>
    intro init
    rcases List.mem_cons.1 h with rfl | hx
    · rw [List.foldl_cons]
      exact le_trans (le_max_right _ _) (foldl_max_ge_init f xs _)
    · rw [List.foldl_cons]
      exact ih hx _

theorem foldl_max_le (f : List Trick → Nat) (B : Nat) (l : List (List Trick))
    (h : ∀ D ∈ l, f D ≤ B) :
    ∀ init : Nat, init ≤ B → l.foldl (fun result ts => max result (f ts)) init ≤ B := by
  induction l with
  | nil => intro init hinit; simpa
  | cons x xs ih =>
    intro init hinit
    rw [List.foldl_cons]
    exact ih (fun D hD => h D (by simp [hD])) _
      (max_le hinit (h x (by simp)))

theorem foldl_max_mem (f : List Trick → Nat) (l : List (List Trick)) :
    ∀ init : Nat,
      l.foldl (fun result ts => max result (f ts)) init = init ∨
      ∃ D ∈ l, l.foldl (fun result ts => max result (f ts)) init = f D := by
  induction l with
  | nil => intro init; left; rfl
  | cons x xs ih =>
    intro init
    rw [List.foldl_cons]
    rcases ih (max init (f x)) with h | ⟨D, hD, h⟩
    · rcases Nat.le_total init (f x) with hle | hle
      · right
        exact ⟨x, by simp, by rw [h, Nat.max_eq_right hle]⟩
      · left
        rw [h, Nat.max_eq_left hle]
    · right
      exact ⟨D, by simp [hD], h⟩

/-! ### Sums versus counted values -/

theorem sum_ge_countP_mul (v : Nat) (l : List Nat) :
    v * l.countP (· == v) ≤ l.sum := by
  induction l with
  | nil => simp
  | cons a t ih =>
    rw [List.countP_cons, List.sum_cons]
    by_cases h : (a == v) = true
    · rw [if_pos h, Nat.mul_add, Nat.mul_one]
      have hav : a = v := by simpa using h
      omega
    · rw [if_neg h, Nat.add_zero]
      omega

theorem two_mem_sum_le (l : List Nat) (a b : Nat) (ha : a ∈ l) (hb : b ∈ l)
    (hne : a ≠ b) : a + b ≤ l.sum := by
  induction l with
  | nil => simp at ha
  | cons x t ih =>
    rw [List.sum_cons]
    rcases List.mem_cons.1 ha with rfl | ha'
    · have hb' : b ∈ t := by
        rcases List.mem_cons.1 hb with h | h
        · exact absurd h.symm hne
        · exact h
      have := List.le_sum_of_mem hb'
      omega
    · rcases List.mem_cons.1 hb with rfl | hb'
      · have := List.le_sum_of_mem ha'
        omega
      · have := ih ha' hb'
        omega

theorem mem_getD_index (r : Roll) (x : Nat) (h : x ∈ r) :
    ∃ d, d < r.length ∧ r.getD d 0 = x := by
  obtain ⟨i, hi, hx⟩ := List.mem_iff_getElem.1 h
  exact ⟨i, hi, by rw [List.getD_eq_getElem?_getD, List.getElem?_eq_getElem hi]; exact hx⟩

/-! ### Soundness of the trick enumeration -/

/-- The combined dice of a decomposition: the hold it induces. -/
def holdOf (tricks : List Trick) : Roll :=
  CombineRolls (tricks.map fun t => t.Dice)

/-- A hold always contains a scoring seed: a single 1 or 5, at least three
of some face, or an exact three-pairs pattern.  This is what guarantees a
hold re-decomposes with a positive score. -/
def holdSeed (h : Roll) : Prop :=
  1 ≤ h.getD 1 0 ∨ 1 ≤ h.getD 5 0 ∨
    (∃ d, 1 ≤ d ∧ d ≤ numSides ∧ 3 ≤ h.getD d 0) ∨ isThreePairs h = true

/-- All conclusions of the enumeration-soundness induction for one
decomposition. -/
def decompOK (roll : Roll) (D : List Trick) : Prop :=
  D ≠ [] ∧ (∀ T ∈ D, T.Dice.length = numSides + 1) ∧
  (holdOf D).length = numSides + 1 ∧
  (∀ i, (holdOf D).getD i 0 ≤ roll.getD i 0) ∧
  trickSum D ≤ 10 * NumDice (holdOf D) ∧ holdSeed (holdOf D)

theorem holdOf_single (T : Trick) (h : T.Dice.length = numSides + 1) :
    holdOf [T] = T.Dice := by
  show CombineRolls [T.Dice] = T.Dice
  exact combineRolls_single T.Dice h

theorem mem_remainingTricks (f : Roll → List (List Trick)) (roll : Roll)
    (trick : Trick) (D : List Trick) (h : D ∈ remainingTricks f roll trick) :
    D = [trick] ∨ ∃ ts ∈ f (SubtractRolls roll trick.Dice), D = trick :: ts := by
  rw [remainingTricks] at h
  rcases List.mem_append.1 h with h | h
  · left
    simpa using h
  · right
    obtain ⟨ts, hts, rfl⟩ := List.mem_map.1 h
    exact ⟨ts, hts, rfl⟩

theorem enumTricks_succ (fuel : Nat) (roll : Roll) :
    enumTricks (fuel + 1) roll =
    ((List.range (numSides + 1)).flatMap fun die =>
      (if 1 ≤ roll.getD die 0 ∧ (die = 1 ∨ die = 5) then
        remainingTricks (enumTricks fuel) roll
          { Ty := singles die, Dice := NewRoll [die] } else [])
      ++ (if 3 ≤ roll.getD die 0 then
        remainingTricks (enumTricks fuel) roll
          { Ty := threeOfAKind die, Dice := RepeatedRoll die (roll.getD die 0) } else [])
      ++ (if 4 ≤ roll.getD die 0 then
        remainingTricks (enumTricks fuel) roll
          { Ty := .FourOfAKind, Dice := RepeatedRoll die (roll.getD die 0) } else [])
      ++ (if 5 ≤ roll.getD die 0 then
        remainingTricks (enumTricks fuel) roll
          { Ty := .FiveOfAKind, Dice := RepeatedRoll die (roll.getD die 0) } else [])
      ++ (if 6 ≤ roll.getD die 0 then
        [[{ Ty := .SixOfAKind, Dice := roll }]] else []))
    ++ (if isStraight roll then [[{ Ty := .Straight, Dice := roll }]]
      else if isThreePairs roll then [[{ Ty := .ThreePairs, Dice := roll }]]
      else if isFourOfAKindPlusPair roll then
        [[{ Ty := .FourOfAKindPlusPair, Dice := roll }]]
      else if isTwoTriplets roll then [[{ Ty := .TwoTriplets, Dice := roll }]]
      else []) := rfl

/-- The one-trick decomposition `[T]` satisfies all conclusions, given the
per-trick facts. -/
theorem decompOK_single (roll : Roll) (T : Trick)
    (hdl : T.Dice.length = numSides + 1)
    (hle : ∀ i, T.Dice.getD i 0 ≤ roll.getD i 0)
    (hsc : T.Score ≤ 10 * NumDice T.Dice)
    (hseed : holdSeed T.Dice) : decompOK roll [T] := by
  have hsingle := holdOf_single T hdl
  refine ⟨by simp, ?_, ?_, ?_, ?_, ?_⟩
  · intro T' hT'
    rw [List.mem_singleton.1 hT']
    exact hdl
  · rw [hsingle]; exact hdl
  · rw [hsingle]; exact hle
  · rw [trickSum_single, hsingle]; exact hsc
  · rw [hsingle]; exact hseed

/-- Extending a sound decomposition of the remainder by one more trick. -/
theorem decompOK_cons (roll : Roll) (T : Trick) (ts : List Trick)
    (hlen : roll.length = numSides + 1)
    (hdl : T.Dice.length = numSides + 1)
    (hle : ∀ i, T.Dice.getD i 0 ≤ roll.getD i 0)
    (hsc : T.Score ≤ 10 * NumDice T.Dice)
    (hseed : 1 ≤ T.Dice.getD 1 0 ∨ 1 ≤ T.Dice.getD 5 0 ∨
      (∃ d, 1 ≤ d ∧ d ≤ numSides ∧ 3 ≤ T.Dice.getD d 0))
    (hts : decompOK (SubtractRolls roll T.Dice) ts) :
    decompOK roll (T :: ts) := by
  obtain ⟨_, hts_len, hhold_len, hhold_le, hts_sum, _⟩ := hts
  have hsub_len : (SubtractRolls roll T.Dice).length = numSides + 1 := by
    rw [SubtractRolls, List.length_zipWith, hlen, hdl]
    simp
  have hmapdice : ∀ x ∈ ts.map (fun t => t.Dice), x.length = numSides + 1 := by
    intro x hx
    obtain ⟨t, ht, rfl⟩ := List.mem_map.1 hx
    exact hts_len t ht
  have hcons : holdOf (T :: ts) = List.zipWith (· + ·) T.Dice (holdOf ts) := by
    show CombineRolls (T.Dice :: ts.map fun t => t.Dice) = _
    exact combineRolls_cons T.Dice _ hdl hmapdice
  have hhold_len' : (holdOf ts).length = numSides + 1 := hhold_len
  have hgd : ∀ i, (holdOf (T :: ts)).getD i 0 = T.Dice.getD i 0 + (holdOf ts).getD i 0 := by
    intro i
    rw [hcons]
    exact zipadd_getD T.Dice (holdOf ts) (by rw [hdl, hhold_len']) i
  refine ⟨by simp, ?_, ?_, ?_, ?_, ?_⟩
  · intro T' hT'
    rcases List.mem_cons.1 hT' with rfl | hT'
    · exact hdl
    · exact hts_len T' hT'
  · rw [hcons, List.length_zipWith, hdl, hhold_len']
    simp
  · intro i
    have hsub := zipsub_getD roll T.Dice (by rw [hlen, hdl]) i
    have h1 := hhold_le i
    rw [SubtractRolls] at hsub
    rw [hgd i]
    rw [show SubtractRolls roll T.Dice = List.zipWith (· - ·) roll T.Dice from rfl,
      hsub] at h1
    have := hle i
    omega
  · rw [trickSum_cons]
    have hnd : NumDice (holdOf (T :: ts)) = NumDice T.Dice + NumDice (holdOf ts) := by
      rw [hcons]
      exact zip_add_sum _ _ (by rw [hdl, hhold_len'])
    rw [hnd]
    have := hts_sum
    omega
  · rcases hseed with h1 | h5 | ⟨d, hd1, hd6, hd3⟩
    · left; rw [hgd 1]; omega
    · right; left; rw [hgd 5]; omega
    · right; right; left
      exact ⟨d, hd1, hd6, by rw [hgd d]; omega⟩

/-- Discharging one recursable branch of the enumeration: both
`remainingTricks` shapes yield a sound decomposition. -/
theorem decomp_branch (fuel : Nat) (roll : Roll) (T : Trick) (D : List Trick)
    (ih : ∀ (roll : Roll) (D : List Trick), roll.length = numSides + 1 →
      roll.getD 0 0 = 0 → D ∈ enumTricks fuel roll → decompOK roll D)
    (hlen : roll.length = numSides + 1) (h0 : roll.getD 0 0 = 0)
    (hdl : T.Dice.length = numSides + 1) (hd0 : T.Dice.getD 0 0 = 0)
    (hle : ∀ i, T.Dice.getD i 0 ≤ roll.getD i 0)
    (hsc : T.Score ≤ 10 * NumDice T.Dice)
    (hseed : 1 ≤ T.Dice.getD 1 0 ∨ 1 ≤ T.Dice.getD 5 0 ∨
      (∃ d, 1 ≤ d ∧ d ≤ numSides ∧ 3 ≤ T.Dice.getD d 0))
    (hD : D ∈ remainingTricks (enumTricks fuel) roll T) :
    decompOK roll D := by
  have hseed' : holdSeed T.Dice := by
    rcases hseed with h | h | h
    · exact Or.inl h
    · exact Or.inr (Or.inl h)
    · exact Or.inr (Or.inr (Or.inl h))
  rcases mem_remainingTricks _ _ _ _ hD with rfl | ⟨ts, hts, rfl⟩
  · exact decompOK_single roll T hdl hle hsc hseed'
  · have hsub_len : (SubtractRolls roll T.Dice).length = numSides + 1 := by
      rw [SubtractRolls, List.length_zipWith, hlen, hdl]
      simp
    have hsub_0 : (SubtractRolls roll T.Dice).getD 0 0 = 0 := by
      rw [zipsub_getD roll T.Dice (by rw [hlen, hdl]) 0, h0]
      omega
    exact decompOK_cons roll T ts hlen hdl hle hsc hseed
      (ih _ ts hsub_len hsub_0 hts)

theorem enumTricks_sound : ∀ (fuel : Nat) (roll : Roll) (D : List Trick),
    roll.length = numSides + 1 → roll.getD 0 0 = 0 →
    D ∈ enumTricks fuel roll → decompOK roll D := by
  intro fuel
  induction fuel with
  | zero => intro roll D _ _ h; simp [enumTricks] at h
  | succ fuel ih =>
    intro roll D hlen h0 hD
    rw [enumTricks_succ] at hD
    rcases List.mem_append.1 hD with hD | hD
    · -- the per-die branches
      obtain ⟨die, hdie, hD⟩ := List.mem_flatMap.1 hD
      have hdie7 : die < numSides + 1 := List.mem_range.1 hdie
      rcases List.mem_append.1 hD with hD | h1
      case inr =>
        -- six of a kind: the whole roll, no recursion
        by_cases hc : 6 ≤ roll.getD die 0
        · rw [if_pos hc] at h1
          have hD1 : D = [{ Ty := .SixOfAKind, Dice := roll }] := by
            simpa using h1
          subst hD1
          have hdienz : die ≠ 0 := by
            intro h; rw [h, h0] at hc; omega
          refine decompOK_single roll _ hlen (fun i => le_refl _) ?_ ?_
          · show trickScores .SixOfAKind ≤ 10 * NumDice roll
            have := getD_le_sum roll die
            show 60 ≤ 10 * roll.sum
            omega
          · right; right; left
            refine ⟨die, by omega, by omega, ?_⟩
            show 3 ≤ roll.getD die 0
            omega
        · rw [if_neg hc] at h1
          simp at h1
      rcases List.mem_append.1 hD with hD | h1
      case inr =>
        -- five of a kind
        by_cases hc : 5 ≤ roll.getD die 0
        · rw [if_pos hc] at h1
          have hdienz : die ≠ 0 := by
            intro h; rw [h, h0] at hc; omega
          have hrr : RepeatedRoll die (roll.getD die 0) =
              emptyRoll.set die (roll.getD die 0) := rfl
          refine decomp_branch fuel roll _ D ih hlen h0 ?_ ?_ ?_ ?_ ?_ h1
          · show (RepeatedRoll die (roll.getD die 0)).length = numSides + 1
            rw [hrr]; exact set_empty_length die _
          · show (RepeatedRoll die (roll.getD die 0)).getD 0 0 = 0
            rw [hrr]; exact set_empty_getD_ne die _ 0 (Ne.symm hdienz)
          · intro i
            show (RepeatedRoll die (roll.getD die 0)).getD i 0 ≤ roll.getD i 0
            rw [hrr]
            have := set_empty_getD_le die (roll.getD die 0) i
            rcases eq_or_ne i die with rfl | hne
            · rw [if_pos rfl] at this; omega
            · rw [if_neg hne] at this; omega
          · show trickScores .FiveOfAKind ≤ 10 * NumDice (RepeatedRoll die (roll.getD die 0))
            rw [hrr]
            show trickScores .FiveOfAKind ≤ 10 * (emptyRoll.set die _).sum
            rw [set_empty_sum die _ hdie7]
            show 40 ≤ 10 * roll.getD die 0
            omega
          · right; right
            refine ⟨die, by omega, by omega, ?_⟩
            show 3 ≤ (RepeatedRoll die (roll.getD die 0)).getD die 0
            rw [hrr, set_empty_getD_self die _ hdie7]
            omega
        · rw [if_neg hc] at h1
          simp at h1
      rcases List.mem_append.1 hD with hD | h1
      case inr =>
        -- four of a kind
        by_cases hc : 4 ≤ roll.getD die 0
        · rw [if_pos hc] at h1
          have hdienz : die ≠ 0 := by
            intro h; rw [h, h0] at hc; omega
          have hrr : RepeatedRoll die (roll.getD die 0) =
              emptyRoll.set die (roll.getD die 0) := rfl
          refine decomp_branch fuel roll _ D ih hlen h0 ?_ ?_ ?_ ?_ ?_ h1
          · show (RepeatedRoll die (roll.getD die 0)).length = numSides + 1
            rw [hrr]; exact set_empty_length die _
          · show (RepeatedRoll die (roll.getD die 0)).getD 0 0 = 0
            rw [hrr]; exact set_empty_getD_ne die _ 0 (Ne.symm hdienz)
          · intro i
            show (RepeatedRoll die (roll.getD die 0)).getD i 0 ≤ roll.getD i 0
            rw [hrr]
            have := set_empty_getD_le die (roll.getD die 0) i
            rcases eq_or_ne i die with rfl | hne
            · rw [if_pos rfl] at this; omega
            · rw [if_neg hne] at this; omega
          · show trickScores .FourOfAKind ≤ 10 * NumDice (RepeatedRoll die (roll.getD die 0))
            rw [hrr]
            show trickScores .FourOfAKind ≤ 10 * (emptyRoll.set die _).sum
            rw [set_empty_sum die _ hdie7]
            show 20 ≤ 10 * roll.getD die 0
            omega
          · right; right
            refine ⟨die, by omega, by omega, ?_⟩
            show 3 ≤ (RepeatedRoll die (roll.getD die 0)).getD die 0
            rw [hrr, set_empty_getD_self die _ hdie7]
            omega
        · rw [if_neg hc] at h1
          simp at h1
      rcases List.mem_append.1 hD with h1 | h1
      case inr =>
        -- three of a kind (with the full count claimed)
        by_cases hc : 3 ≤ roll.getD die 0
        · rw [if_pos hc] at h1
          have hdienz : die ≠ 0 := by
            intro h; rw [h, h0] at hc; omega
          have hrr : RepeatedRoll die (roll.getD die 0) =
              emptyRoll.set die (roll.getD die 0) := rfl
          refine decomp_branch fuel roll _ D ih hlen h0 ?_ ?_ ?_ ?_ ?_ h1
          · show (RepeatedRoll die (roll.getD die 0)).length = numSides + 1
            rw [hrr]; exact set_empty_length die _
          · show (RepeatedRoll die (roll.getD die 0)).getD 0 0 = 0
            rw [hrr]; exact set_empty_getD_ne die _ 0 (Ne.symm hdienz)
          · intro i
            show (RepeatedRoll die (roll.getD die 0)).getD i 0 ≤ roll.getD i 0
            rw [hrr]
            have := set_empty_getD_le die (roll.getD die 0) i
            rcases eq_or_ne i die with rfl | hne
            · rw [if_pos rfl] at this; omega
            · rw [if_neg hne] at this; omega
          · show trickScores (threeOfAKind die) ≤ 10 * NumDice (RepeatedRoll die (roll.getD die 0))
            rw [hrr]
            show trickScores (threeOfAKind die) ≤ 10 * (emptyRoll.set die _).sum
            rw [set_empty_sum die _ hdie7]
            have hdie7' : die < 7 := by simpa [numSides] using hdie7
            have hsc12 : trickScores (threeOfAKind die) ≤ 12 := by
              interval_cases die <;> decide
            omega
          · right; right
            refine ⟨die, by omega, by omega, ?_⟩
            show 3 ≤ (RepeatedRoll die (roll.getD die 0)).getD die 0
            rw [hrr, set_empty_getD_self die _ hdie7]
            omega
        · rw [if_neg hc] at h1
          simp at h1
      case inl =>
        -- singles
        by_cases hc : 1 ≤ roll.getD die 0 ∧ (die = 1 ∨ die = 5)
        · rw [if_pos hc] at h1
          obtain ⟨hcount, hd15⟩ := hc
          have hdienz : die ≠ 0 := by rcases hd15 with rfl | rfl <;> omega
          refine decomp_branch fuel roll _ D ih hlen h0 ?_ ?_ ?_ ?_ ?_ h1
          · show (NewRoll [die]).length = numSides + 1
            rw [newRoll_single]; exact set_empty_length die 1
          · show (NewRoll [die]).getD 0 0 = 0
            rw [newRoll_single]; exact set_empty_getD_ne die 1 0 (Ne.symm hdienz)
          · intro i
            show (NewRoll [die]).getD i 0 ≤ roll.getD i 0
            rw [newRoll_single]
            have := set_empty_getD_le die 1 i
            rcases eq_or_ne i die with rfl | hne
            · rw [if_pos rfl] at this; omega
            · rw [if_neg hne] at this; omega
          · show trickScores (singles die) ≤ 10 * NumDice (NewRoll [die])
            rw [newRoll_single]
            show trickScores (singles die) ≤ 10 * (emptyRoll.set die 1).sum
            rw [set_empty_sum die 1 hdie7]
            rcases hd15 with rfl | rfl
            · show 2 ≤ 10; omega
            · show 1 ≤ 10; omega
          · show 1 ≤ (NewRoll [die]).getD 1 0 ∨ 1 ≤ (NewRoll [die]).getD 5 0 ∨
              ∃ d, 1 ≤ d ∧ d ≤ numSides ∧ 3 ≤ (NewRoll [die]).getD d 0
            rw [newRoll_single]
            rcases hd15 with rfl | rfl
            · left; rw [set_empty_getD_self 1 1 (by omega)]
            · right; left; rw [set_empty_getD_self 5 1 (by omega)]
        · rw [if_neg hc] at h1
          simp at h1
    · -- the special six-dice patterns
      by_cases hstr : isStraight roll
      · rw [if_pos hstr] at hD
        have hD1 : D = [{ Ty := .Straight, Dice := roll }] := by simpa using hD
        subst hD1
        have hone : roll.getD 1 0 = 1 := by
          have := (List.all_eq_true.1 hstr) 0 (by simp [numSides])
          simpa using this
        refine decompOK_single roll _ hlen (fun i => le_refl _) ?_ ?_
        · show trickScores .Straight ≤ 10 * NumDice roll
          have hall : ∀ i ∈ List.range numSides, roll.getD (i + 1) 0 = 1 := by
            intro i hi
            have := (List.all_eq_true.1 hstr) i hi
            simpa using this
          have h1 := hall 0 (by simp [numSides])
          have h2 := hall 1 (by simp [numSides])
          have h3 := hall 2 (by simp [numSides])
          have h4 := hall 3 (by simp [numSides])
          have h5 := hall 4 (by simp [numSides])
          have h6 := hall 5 (by simp [numSides])
          have hsum := sum_eq_getD_seven roll hlen
          show 30 ≤ 10 * roll.sum
          simp only [Nat.reduceAdd] at h1 h2 h3 h4 h5 h6
          omega
        · left
          show 1 ≤ roll.getD 1 0
          omega
      · rw [if_neg hstr] at hD
        by_cases htp : isThreePairs roll
        · rw [if_pos htp] at hD
          have hD1 : D = [{ Ty := .ThreePairs, Dice := roll }] := by simpa using hD
          subst hD1
          have hcount : 3 ≤ roll.countP (· == 2) := by
            have := htp
            rw [isThreePairs] at this
            exact Nat.le_of_ble_eq_true (by simpa using this)
          refine decompOK_single roll _ hlen (fun i => le_refl _) ?_ ?_
          · show trickScores .ThreePairs ≤ 10 * NumDice roll
            have := sum_ge_countP_mul 2 roll
            show 30 ≤ 10 * roll.sum
            omega
          · right; right; right
            exact htp
        · rw [if_neg htp] at hD
          by_cases hfp : isFourOfAKindPlusPair roll
          · rw [if_pos hfp] at hD
            have hD1 : D = [{ Ty := .FourOfAKindPlusPair, Dice := roll }] := by
              simpa using hD
            subst hD1
            rw [isFourOfAKindPlusPair, Bool.and_eq_true] at hfp
            obtain ⟨h4, h2⟩ := hfp
            obtain ⟨x4, hx4mem, hx4⟩ := List.any_eq_true.1 h4
            obtain ⟨x2, hx2mem, hx2⟩ := List.any_eq_true.1 h2
            have hx4v : x4 = 4 := by simpa using hx4
            have hx2v : x2 = 2 := by simpa using hx2
            subst hx4v hx2v
            refine decompOK_single roll _ hlen (fun i => le_refl _) ?_ ?_
            · show trickScores .FourOfAKindPlusPair ≤ 10 * NumDice roll
              have := two_mem_sum_le roll 4 2 hx4mem hx2mem (by omega)
              show 30 ≤ 10 * roll.sum
              omega
            · right; right; left
              obtain ⟨d, hd, hdv⟩ := mem_getD_index roll 4 hx4mem
              have hdnz : d ≠ 0 := by
                intro h; rw [h, h0] at hdv; omega
              rw [hlen] at hd
              refine ⟨d, by omega, by omega, ?_⟩
              show 3 ≤ roll.getD d 0
              omega
          · rw [if_neg hfp] at hD
            by_cases htt : isTwoTriplets roll
            · rw [if_pos htt] at hD
              have hD1 : D = [{ Ty := .TwoTriplets, Dice := roll }] := by
                simpa using hD
              subst hD1
              have hcount : 2 ≤ roll.countP (· == 3) := by
                have := htt
                rw [isTwoTriplets] at this
                exact Nat.le_of_ble_eq_true (by simpa using this)
              have hex : ∃ x ∈ roll, (x == 3) = true := by
                apply List.countP_pos_iff.1
                omega
              obtain ⟨x3, hx3mem, hx3⟩ := hex
              have hx3v : x3 = 3 := by simpa using hx3
              subst hx3v
              refine decompOK_single roll _ hlen (fun i => le_refl _) ?_ ?_
              · show trickScores .TwoTriplets ≤ 10 * NumDice roll
                have := sum_ge_countP_mul 3 roll
                show 50 ≤ 10 * roll.sum
                omega
              · right; right; left
                obtain ⟨d, hd, hdv⟩ := mem_getD_index roll 3 hx3mem
                have hdnz : d ≠ 0 := by
                  intro h; rw [h, h0] at hdv; omega
                rw [hlen] at hd
                refine ⟨d, by omega, by omega, ?_⟩
                show 3 ≤ roll.getD d 0
                omega
            · rw [if_neg htt] at hD
              simp at hD

/-! ### Existence of scoring decompositions -/

theorem straight_no_two (h : Roll) (hlen : h.length = numSides + 1)
    (h0 : h.getD 0 0 = 0) (hstr : isStraight h = true) :
    isThreePairs h = false := by
  rw [isThreePairs]
  have hcount : h.countP (· == 2) = 0 := by
    rw [List.countP_eq_zero]
    intro a ha
    obtain ⟨d, hd, hdv⟩ := mem_getD_index h a ha
    rcases Nat.eq_zero_or_pos d with rfl | hdpos
    · rw [h0] at hdv
      subst hdv
      decide
    · have hd6 : d - 1 < numSides := by rw [hlen] at hd; omega
      have := (List.all_eq_true.1 hstr) (d - 1) (List.mem_range.2 hd6)
      have hone : h.getD (d - 1 + 1) 0 = 1 := by simpa using this
      rw [show d - 1 + 1 = d from by omega] at hone
      rw [hone] at hdv
      subst hdv
      decide
  simp [hcount]

theorem seed_gives_decomposition (fuel : Nat) (h : Roll)
    (hlen : h.length = numSides + 1) (h0 : h.getD 0 0 = 0)
    (hseed : holdSeed h) :
    ∃ D ∈ enumTricks (fuel + 1) h, 1 ≤ trickSum D := by
  rw [enumTricks_succ]
  rcases hseed with h1 | h5 | ⟨d, hd1, hd6, hd3⟩ | htp
  · refine ⟨[{ Ty := singles 1, Dice := NewRoll [1] }], ?_, ?_⟩
    · apply List.mem_append_left
      apply List.mem_flatMap.2
      refine ⟨1, List.mem_range.2 (by simp [numSides]), ?_⟩
      apply List.mem_append_left
      apply List.mem_append_left
      apply List.mem_append_left
      apply List.mem_append_left
      rw [if_pos ⟨h1, Or.inl rfl⟩, remainingTricks]
      apply List.mem_append_left
      simp
    · rw [trickSum_single]
      decide
  · refine ⟨[{ Ty := singles 5, Dice := NewRoll [5] }], ?_, ?_⟩
    · apply List.mem_append_left
      apply List.mem_flatMap.2
      refine ⟨5, List.mem_range.2 (by simp [numSides]), ?_⟩
      apply List.mem_append_left
      apply List.mem_append_left
      apply List.mem_append_left
      apply List.mem_append_left
      rw [if_pos ⟨h5, Or.inr rfl⟩, remainingTricks]
      apply List.mem_append_left
      simp
    · rw [trickSum_single]
      decide
  · refine ⟨[{ Ty := threeOfAKind d, Dice := RepeatedRoll d (h.getD d 0) }], ?_, ?_⟩
    · apply List.mem_append_left
      apply List.mem_flatMap.2
      refine ⟨d, List.mem_range.2 (by simp [numSides] at hd6 ⊢; omega), ?_⟩
      apply List.mem_append_left
      apply List.mem_append_left
      apply List.mem_append_left
      apply List.mem_append_right
      rw [if_pos hd3, remainingTricks]
      apply List.mem_append_left
      simp
    · rw [trickSum_single]
      show 1 ≤ trickScores (threeOfAKind d)
      have hd6' : d ≤ 6 := by simpa [numSides] using hd6
      interval_cases d <;> decide
  · have hstr : isStraight h = false := by
      by_contra hcontra
      have : isStraight h = true := by
        cases hval : isStraight h
        · exact absurd hval hcontra
        · rfl
      rw [straight_no_two h hlen h0 this] at htp
      exact absurd htp (by decide)
    refine ⟨[{ Ty := .ThreePairs, Dice := h }], ?_, ?_⟩
    · apply List.mem_append_right
      rw [if_neg (by rw [hstr]; decide), if_pos htp]
      simp
    · rw [trickSum_single]
      show 1 ≤ trickScores .ThreePairs
      decide

/-! ### Bounds and positivity for scores -/

theorem numDice_le_of_pointwise (a b : Roll) (ha : a.length = numSides + 1)
    (hb : b.length = numSides + 1) (h : ∀ i, a.getD i 0 ≤ b.getD i 0) :
    NumDice a ≤ NumDice b := by
  show a.sum ≤ b.sum
  rw [sum_eq_getD_seven a ha, sum_eq_getD_seven b hb]
  have h0 := h 0
  have h1 := h 1
  have h2 := h 2
  have h3 := h 3
  have h4 := h 4
  have h5 := h 5
  have h6 := h 6
  omega

theorem numDice_pos_of_seed (h : Roll) (hlen : h.length = numSides + 1)
    (hseed : holdSeed h) : 1 ≤ NumDice h := by
  rcases hseed with h1 | h5 | ⟨d, _, _, hd3⟩ | htp
  · exact le_trans h1 (getD_le_sum h 1)
  · exact le_trans h5 (getD_le_sum h 5)
  · exact le_trans (by omega) (getD_le_sum h d)
  · rw [isThreePairs] at htp
    have hcount : 3 ≤ h.countP (· == 2) := by
      exact Nat.le_of_ble_eq_true (by simpa using htp)
    have := sum_ge_countP_mul 2 h
    show 1 ≤ h.sum
    omega

theorem potentialHolds_sound (roll : Roll) (hlen : roll.length = numSides + 1)
    (h0 : roll.getD 0 0 = 0) (h : Roll) (hh : h ∈ potentialHolds roll) :
    h.length = numSides + 1 ∧ h.getD 0 0 = 0 ∧
    (∀ i, h.getD i 0 ≤ roll.getD i 0) ∧ holdSeed h ∧
    NumDice h ≤ NumDice roll ∧ 1 ≤ NumDice h := by
  rw [potentialHolds] at hh
  obtain ⟨D, hD, rfl⟩ := List.mem_map.1 hh
  obtain ⟨_, _, hlen', hle, _, hseed⟩ :=
    enumTricks_sound (NumDice roll + 1) roll D hlen h0 hD
  refine ⟨hlen', ?_, hle, hseed, ?_, ?_⟩
  · show (holdOf D).getD 0 0 = 0
    have := hle 0
    omega
  · exact numDice_le_of_pointwise _ roll hlen' hlen hle
  · exact numDice_pos_of_seed _ hlen' hseed

theorem calculateScore_pos (h : Roll) (hlen : h.length = numSides + 1)
    (h0 : h.getD 0 0 = 0) (hseed : holdSeed h) : 1 ≤ CalculateScore h := by
  obtain ⟨D, hD, hsum⟩ := seed_gives_decomposition (NumDice h) h hlen h0 hseed
  have := foldl_max_ge_mem trickSum (enumeratePossibleTricks h) D hD 0
  rw [CalculateScore]
  omega

theorem calculateScore_le (h : Roll) (hlen : h.length = numSides + 1)
    (h0 : h.getD 0 0 = 0) : CalculateScore h ≤ 10 * NumDice h := by
  rw [CalculateScore]
  apply foldl_max_le
  · intro D hD
    obtain ⟨_, _, hlen', hle, hsum, _⟩ :=
      enumTricks_sound (NumDice h + 1) h D hlen h0 hD
    refine le_trans hsum ?_
    exact Nat.mul_le_mul_left 10 (numDice_le_of_pointwise _ h hlen' hlen hle)
  · exact Nat.zero_le _

/-! ### Facts about the score cache -/

theorem rollsByID_mem (id : Nat) (h : id < nDistinctRolls) :
    rollsByID id ∈ allRollsList := by
  have hlt : id < allRollsList.length := by rw [allRollsList_length]; exact h
  rw [rollsByID, List.getD_eq_getElem?_getD, List.getElem?_eq_getElem hlt]
  exact List.getElem_mem hlt

theorem rollsByID_out (id : Nat) (h : ¬ id < nDistinctRolls) :
    rollsByID id = emptyRoll := by
  rw [rollsByID, List.getD_eq_default]
  rw [allRollsList_length]
  omega

theorem rollsByID_props (id : Nat) :
    (rollsByID id).length = numSides + 1 ∧ (rollsByID id).getD 0 0 = 0 ∧
    (rollsByID id).sum ≤ MaxNumDice := by
  by_cases h : id < nDistinctRolls
  · exact (mem_allRollsList_iff _).1 (rollsByID_mem id h)
  · rw [rollsByID_out id h]
    refine ⟨emptyRoll_length, emptyRoll_getD 0, ?_⟩
    simp [emptyRoll]

theorem emptyRoll_not_hold (roll : Roll) (hlen : roll.length = numSides + 1)
    (h0 : roll.getD 0 0 = 0) : emptyRoll ∉ potentialHolds roll := by
  intro hmem
  obtain ⟨_, _, _, _, _, hpos⟩ := potentialHolds_sound roll hlen h0 emptyRoll hmem
  have : NumDice emptyRoll = 0 := by simp [NumDice, emptyRoll]
  omega

theorem isAchievableHold_empty : isAchievableHold emptyRoll = false := by
  rw [isAchievableHold]
  rw [List.any_eq_false]
  intro r hr
  obtain ⟨hlen, h0, _⟩ := (mem_allRollsList_iff r).1 hr
  intro hcontains
  have hmem : emptyRoll ∈ potentialHolds r := by
    have : (potentialHolds r).elem emptyRoll = true := hcontains
    exact List.elem_iff.1 this
  exact emptyRoll_not_hold r hlen h0 hmem

theorem scoreCache_zero : scoreCache 0 = 0 := by
  rw [scoreCache, rollsByID_zero, isAchievableHold_empty]
  simp

theorem scoreCache_le (id : Nat) : scoreCache id ≤ 60 := by
  rw [scoreCache]
  by_cases h : isAchievableHold (rollsByID id) = true
  · rw [if_pos h]
    obtain ⟨hlen, h0, hsum⟩ := rollsByID_props id
    have := calculateScore_le (rollsByID id) hlen h0
    have hnd : NumDice (rollsByID id) ≤ 6 := hsum
    omega
  · rw [if_neg h]
    omega

/-- Every hold of an enumerated roll is itself an enumerated roll, its ID
round-trips, and its cached score is positive. -/
theorem hold_facts (id0 : Nat) (hid0 : id0 < nDistinctRolls) (h : Roll)
    (hh : h ∈ potentialHolds (rollsByID id0)) :
    h ∈ allRollsList ∧ rollsByID (rollToID h) = h ∧
    1 ≤ scoreCache (rollToID h) ∧
    rollNumDice (rollToID h) = NumDice h ∧
    NumDice h ≤ NumDice (rollsByID id0) ∧ 1 ≤ NumDice h := by
  obtain ⟨hlen, h0, hsum⟩ := rollsByID_props id0
  obtain ⟨hlen', h0', hle, hseed, hnd, hpos⟩ :=
    potentialHolds_sound (rollsByID id0) hlen h0 h hh
  have hmem : h ∈ allRollsList := by
    apply (mem_allRollsList_iff h).2
    refine ⟨hlen', h0', ?_⟩
    have : NumDice h ≤ NumDice (rollsByID id0) := hnd
    rw [NumDice, NumDice] at this
    omega
  have hround : rollsByID (rollToID h) = h := rollsByID_rollToID h hmem
  refine ⟨hmem, hround, ?_, ?_, hnd, hpos⟩
  · rw [scoreCache, hround]
    have hach : isAchievableHold h = true := by
      rw [isAchievableHold, List.any_eq_true]
      refine ⟨rollsByID id0, rollsByID_mem id0 hid0, ?_⟩
      show (potentialHolds (rollsByID id0)).elem h = true
      exact List.elem_iff.2 hh
    rw [if_pos hach]
    exact calculateScore_pos h hlen' h0' hseed
  · rw [rollNumDice, hround]

/-! ### Closed forms for ApplyAction -/

theorem map_range_getD {α : Type} (f : Nat → α) (d : α) (len i : Nat) :
    (((List.range len).map f).getD i d) = if i < len then f i else d := by
  rcases Nat.lt_or_ge i len with h | h
  · have hlt : i < ((List.range len).map f).length := by simpa using h
    rw [List.getD_eq_getElem?_getD, List.getElem?_eq_getElem hlt, if_pos h]
    simp
  · rw [List.getD_eq_default, if_neg (by omega)]
    simpa using h

theorem rotateScores_getD_last (scores : List Nat) (n final : Nat)
    (hn : 1 ≤ n) (hlen : n ≤ scores.length) :
    (rotateScores scores n final).getD (n - 1) 0 = final := by
  rw [rotateScores, map_range_getD, if_pos (by omega)]
  rw [if_neg (by omega), if_pos (by omega)]

theorem rotateScores_length (scores : List Nat) (n final : Nat) :
    (rotateScores scores n final).length = scores.length := by
  simp [rotateScores]

theorem applyAction_NumPlayers (s : GameState) (a : GameAction) :
    (ApplyAction s a).NumPlayers = s.NumPlayers := by
  unfold ApplyAction
  dsimp only
  by_cases hc : a.ContinueRolling = true
  · rw [if_pos hc]
    by_cases ht : scoreCache a.HeldDiceID = 0 <;>
      by_cases hd : True <;> simp [ht] <;> split <;> rfl
  · rw [if_neg hc]
    by_cases ht : scoreCache a.HeldDiceID = 0 <;> simp [ht] <;> split <;> rfl

theorem applyAction_cont (s : GameState) (a : GameAction)
    (h : a.ContinueRolling = true) :
    ApplyAction s a =
      { ScoreThisRound :=
          if scoreCache a.HeldDiceID = 0 then 0
          else addU8 s.ScoreThisRound (scoreCache a.HeldDiceID)
        NumDiceToRoll :=
          if s.NumDiceToRoll - rollNumDice a.HeldDiceID = 0 then MaxNumDice
          else s.NumDiceToRoll - rollNumDice a.HeldDiceID
        NumPlayers := s.NumPlayers
        PlayerScores := s.PlayerScores } := by
  simp only [ApplyAction]
  rw [if_pos h]
  by_cases ht : scoreCache a.HeldDiceID = 0
  · rw [if_pos ht, if_pos ht]
    split <;> rfl
  · rw [if_neg ht, if_neg ht]
    split <;> rfl

theorem applyAction_stop (s : GameState) (a : GameAction)
    (h : a.ContinueRolling = false) :
    ApplyAction s a =
      { ScoreThisRound := 0
        NumDiceToRoll := MaxNumDice
        NumPlayers := s.NumPlayers
        PlayerScores :=
          rotateScores s.PlayerScores s.NumPlayers
            (addU8 (s.PlayerScores.getD 0 0)
              (if scoreCache a.HeldDiceID = 0 then 0
               else addU8 s.ScoreThisRound (scoreCache a.HeldDiceID))) } := by
  simp only [ApplyAction]
  rw [if_neg (by rw [h]; simp)]
  by_cases ht : scoreCache a.HeldDiceID = 0
  · rw [if_pos ht, if_pos ht]
    split <;> rfl
  · rw [if_neg ht, if_neg ht]
    split <;> rfl

theorem addU8_le_255 (a b : Nat) : addU8 a b ≤ 255 := by
  simp only [addU8]
  split
  · omega
  · have := Nat.mod_lt (a + b) (show 0 < 256 by omega)
    omega

theorem addU8_pos (a b : Nat) (ha : a ≤ 255) (hb1 : 1 ≤ b) (hb2 : b ≤ 255) :
    1 ≤ addU8 a b := by
  simp only [addU8]
  split
  · omega
  · rename_i hlt
    rcases Nat.lt_or_ge (a + b) 256 with hab | hab
    · rw [Nat.mod_eq_of_lt hab] at hlt ⊢
      omega
    · have : (a + b) % 256 = a + b - 256 := by omega
      rw [this] at hlt
      omega

theorem addU8_small (a b : Nat) (h : a + b ≤ 255) : addU8 a b = a + b := by
  simp only [addU8]
  rw [Nat.mod_eq_of_lt (by omega)]
  rw [if_neg (by omega)]

/-- Membership in the potential-action set determines the held hold. -/
theorem mem_potentialActions (id : Nat) (a : GameAction)
    (ha : a ∈ rollIDToPotentialActions id) :
    ∃ h ∈ potentialHolds (rollsByID id), a.HeldDiceID = rollToID h := by
  rw [rollIDToPotentialActions] at ha
  obtain ⟨h, hh, hmem⟩ := List.mem_flatMap.1 ha
  rcases List.mem_cons.1 hmem with rfl | hmem
  · exact ⟨h, hh, rfl⟩
  · rcases List.mem_cons.1 hmem with rfl | hmem
    · exact ⟨h, hh, rfl⟩
    · simp at hmem

/-- A legal action holds dice with a positive cached score. -/
theorem legal_action_score_pos (s : GameState) (a : GameAction)
    (hdice : s.NumDiceToRoll ≤ MaxNumDice)
    (hlegal : ∃ r ∈ distinctRolls s.NumDiceToRoll,
      a ∈ rollIDToPotentialActions (rollToID r)) :
    1 ≤ scoreCache a.HeldDiceID ∧
    rollNumDice a.HeldDiceID ≤ s.NumDiceToRoll ∧ a.HeldDiceID ≠ 0 := by
  obtain ⟨r, hr, ha⟩ := hlegal
  have hrmem : r ∈ allRollsList := by
    rw [allRollsList]
    apply List.mem_flatMap.2
    exact ⟨s.NumDiceToRoll, List.mem_range.2 (by omega), hr⟩
  have hid : rollToID r < nDistinctRolls := rollToID_lt r hrmem
  have hround : rollsByID (rollToID r) = r := rollsByID_rollToID r hrmem
  obtain ⟨h, hh, hheld⟩ := mem_potentialActions _ a ha
  obtain ⟨hmem, hround', hscore, hnd, hle, hpos⟩ := hold_facts _ hid h hh
  have hnum : NumDice r = s.NumDiceToRoll :=
    mem_makeRolls_numDice ((mem_distinctRolls_iff _ _).1 hr)
  refine ⟨by rw [hheld]; exact hscore, ?_, ?_⟩
  · rw [hheld, hnd]
    rw [hround, hnum] at hle
    exact hle
  · rw [hheld]
    intro hzero
    have : rollsByID 0 = h := by rw [← hzero, hround']
    rw [rollsByID_zero] at this
    have : NumDice h = 0 := by rw [← this]; simp [NumDice, emptyRoll]
    omega

/-! ## Claims -/

/-- C7: `CalculateScore(held)` equals the maximum over all trick
decompositions of `held` of the sum of the decomposition's trick scores
(it dominates every decomposition and is attained by one whenever it is
nonzero), and `CalculateScore {1:4, 5:2}` is 30, the
`FourOfAKindPlusPair` score. -/
theorem C7_calculateScore_max (held : Roll) :
    (∀ D ∈ enumeratePossibleTricks held, trickSum D ≤ CalculateScore held) ∧
    (CalculateScore held = 0 ∨
      ∃ D ∈ enumeratePossibleTricks held, trickSum D = CalculateScore held) ∧
    CalculateScore (NewRoll [1, 1, 1, 1, 5, 5]) = 30 ∧
    trickScores .FourOfAKindPlusPair = 30 := by
  refine ⟨?_, ?_, by decide, by decide⟩
  · intro D hD
    exact foldl_max_ge_mem trickSum _ D hD 0
  · rcases foldl_max_mem trickSum (enumeratePossibleTricks held) 0 with h | ⟨D, hD, h⟩
    · left; exact h
    · right; exact ⟨D, hD, h.symm⟩

/-- C8: a legal scoring action with `ContinueRolling = true` leaves the
player scores and player count unchanged, folds the hold's cached score
into the round score with saturating `uint8` addition, and decreases the
dice to roll by the held count, resetting to 6 on hot dice; in particular
holding three 1s from the initial two-player state gives round score 6 and
3 dice to roll. -/
theorem C8_applyAction_continue (s : GameState) (a : GameAction)
    (hdice : s.NumDiceToRoll ≤ MaxNumDice)
    (hlegal : ∃ r ∈ distinctRolls s.NumDiceToRoll,
      a ∈ rollIDToPotentialActions (rollToID r))
    (hcont : a.ContinueRolling = true) :
    (ApplyAction s a).PlayerScores = s.PlayerScores ∧
    (ApplyAction s a).NumPlayers = s.NumPlayers ∧
    (ApplyAction s a).ScoreThisRound =
      addU8 s.ScoreThisRound (scoreCache a.HeldDiceID) ∧
    (ApplyAction s a).NumDiceToRoll =
      (if s.NumDiceToRoll - rollNumDice a.HeldDiceID = 0 then MaxNumDice
       else s.NumDiceToRoll - rollNumDice a.HeldDiceID) ∧
    ApplyAction (NewGameState 2)
      { HeldDiceID := rollToID (NewRoll [1, 1, 1]), ContinueRolling := true } =
      { ScoreThisRound := 6, NumDiceToRoll := 3, NumPlayers := 2,
        PlayerScores := [0, 0, 0, 0] } := by
  obtain ⟨hscore, hheld, _⟩ := legal_action_score_pos s a hdice hlegal
  rw [applyAction_cont s a hcont, if_neg (by omega)]
  exact ⟨rfl, rfl, rfl, rfl, by decide⟩

/-- A small legal state and scoring action used to witness C8. -/
def c8State : GameState :=
  { ScoreThisRound := 0, NumDiceToRoll := 3, NumPlayers := 2,
    PlayerScores := [0, 0, 0, 0] }

def c8Action : GameAction :=
  { HeldDiceID := rollToID (NewRoll [1, 1, 1]), ContinueRolling := true }

/-- C8 witness: the hypotheses hold at the state with three dice to roll
and the hold of three 1s. -/
theorem C8_witness :
    c8State.NumDiceToRoll ≤ MaxNumDice ∧
    (∃ r ∈ distinctRolls c8State.NumDiceToRoll,
      c8Action ∈ rollIDToPotentialActions (rollToID r)) ∧
    (ApplyAction c8State c8Action).ScoreThisRound =
      addU8 c8State.ScoreThisRound (scoreCache c8Action.HeldDiceID) := by
  refine ⟨by decide, by decide, ?_⟩
  exact (C8_applyAction_continue c8State c8Action (by decide) (by decide)
    rfl).2.2.1

/-- A small legal state and stop action used for C3. -/
def c3State : GameState :=
  { ScoreThisRound := 0, NumDiceToRoll := 1, NumPlayers := 2,
    PlayerScores := [0, 0, 0, 0] }

def c3Action : GameAction :=
  { HeldDiceID := rollToID (NewRoll [1]), ContinueRolling := false }

/-- C3 counterexample: for the legal stop action holding a single 1 at the
initial-round state with one die to roll, the rotated-in slot is the
banked 2 (the hold's score), not the saturating sum of the *old*
`PlayerScores[0]` and the *old* `ScoreThisRound` (which is 0). -/
theorem C3_counterexample :
    (∃ r ∈ distinctRolls c3State.NumDiceToRoll,
      c3Action ∈ rollIDToPotentialActions (rollToID r)) ∧
    rollNumDice c3Action.HeldDiceID ≤ c3State.NumDiceToRoll ∧
    c3Action.ContinueRolling = false ∧
    (ApplyAction c3State c3Action).PlayerScores.getD
        (c3State.NumPlayers - 1) 0 ≠
      addU8 (c3State.PlayerScores.getD 0 0) c3State.ScoreThisRound := by
  refine ⟨by decide, by decide, rfl, by decide⟩

/-- C3 (amended): `ApplyAction` preserves `NumPlayers` for every state and
action; and for a legal stop action, the rotated-in slot equals the
saturating `uint8` sum of the old `PlayerScores[0]` and the *updated*
round score (the old `ScoreThisRound` plus the hold's cached score,
saturating), while the result has `ScoreThisRound = 0` and
`NumDiceToRoll = 6`. -/
theorem C3_applyAction_stop (s : GameState) (a : GameAction)
    (hplayers1 : 1 ≤ s.NumPlayers) (hplayers4 : s.NumPlayers ≤ maxNumPlayers)
    (hscores : s.PlayerScores.length = maxNumPlayers)
    (hdice : s.NumDiceToRoll ≤ MaxNumDice)
    (hlegal : ∃ r ∈ distinctRolls s.NumDiceToRoll,
      a ∈ rollIDToPotentialActions (rollToID r))
    (hstop : a.ContinueRolling = false) :
    (ApplyAction s a).NumPlayers = s.NumPlayers ∧
    (ApplyAction s a).PlayerScores.getD (s.NumPlayers - 1) 0 =
      addU8 (s.PlayerScores.getD 0 0)
        (addU8 s.ScoreThisRound (scoreCache a.HeldDiceID)) ∧
    (ApplyAction s a).ScoreThisRound = 0 ∧
    (ApplyAction s a).NumDiceToRoll = MaxNumDice := by
  obtain ⟨hscore, hheld, _⟩ := legal_action_score_pos s a hdice hlegal
  rw [applyAction_stop s a hstop]
  refine ⟨rfl, ?_, rfl, rfl⟩
  rw [if_neg (by omega)]
  exact rotateScores_getD_last s.PlayerScores s.NumPlayers _ hplayers1
    (by omega)

/-- C3 witness: the amended statement applies at the single-die stop
action. -/
theorem C3_witness :
    (1 ≤ c3State.NumPlayers) ∧
    (∃ r ∈ distinctRolls c3State.NumDiceToRoll,
      c3Action ∈ rollIDToPotentialActions (rollToID r)) ∧
    (ApplyAction c3State c3Action).PlayerScores.getD
        (c3State.NumPlayers - 1) 0 =
      addU8 (c3State.PlayerScores.getD 0 0)
        (addU8 c3State.ScoreThisRound (scoreCache c3Action.HeldDiceID)) := by
  refine ⟨by decide, by decide, ?_⟩
  exact (C3_applyAction_stop c3State c3Action (by decide) (by decide)
    (by decide) (by decide) (by decide) rfl).2.1

/-- C10: `ApplyAction` clears `ScoreThisRound` exactly when the cached
score of the held dice is zero, regardless of `ContinueRolling` — in
particular the undocumented action `(HeldDiceID = 0, Continue = true)`
clears the accumulated round score like a farkle while leaving the player
scores alone — and the cached score of every hold reachable from an
enumerated roll is nonzero, so the reset never fires for a legal scoring
action. -/
theorem C10_farkle_reset (s : GameState) (a : GameAction)
    (hround : s.ScoreThisRound ≤ 255) :
    (scoreCache a.HeldDiceID = 0 → a.ContinueRolling = true →
      (ApplyAction s a).ScoreThisRound = 0) ∧
    (scoreCache a.HeldDiceID = 0 → a.ContinueRolling = false →
      (ApplyAction s a).ScoreThisRound = 0) ∧
    (scoreCache a.HeldDiceID ≠ 0 → a.ContinueRolling = true →
      (ApplyAction s a).ScoreThisRound ≠ 0) ∧
    (ApplyAction s { HeldDiceID := 0, ContinueRolling := true
      }).ScoreThisRound = 0 ∧
    (ApplyAction s { HeldDiceID := 0, ContinueRolling := true
      }).PlayerScores = s.PlayerScores ∧
    (∀ id0, id0 < nDistinctRolls → ∀ h ∈ potentialHolds (rollsByID id0),
      scoreCache (rollToID h) ≠ 0) := by
  have hzero : ∀ s' : GameState,
      (ApplyAction s' { HeldDiceID := 0, ContinueRolling := true
        }).ScoreThisRound = 0 ∧
      (ApplyAction s' { HeldDiceID := 0, ContinueRolling := true
        }).PlayerScores = s'.PlayerScores := by
    intro s'
    rw [applyAction_cont s' _ rfl, if_pos scoreCache_zero]
    exact ⟨rfl, rfl⟩
  refine ⟨?_, ?_, ?_, (hzero s).1, (hzero s).2, ?_⟩
  · intro h0 hcont
    rw [applyAction_cont s a hcont, if_pos h0]
  · intro h0 hstop
    rw [applyAction_stop s a hstop]
  · intro h0 hcont
    rw [applyAction_cont s a hcont, if_neg h0]
    have hle := scoreCache_le a.HeldDiceID
    have := addU8_pos s.ScoreThisRound (scoreCache a.HeldDiceID) hround
      (by omega) (by omega)
    show addU8 s.ScoreThisRound (scoreCache a.HeldDiceID) ≠ 0
    omega
  · intro id0 hid0 h hh
    have := (hold_facts id0 hid0 h hh).2.2.1
    omega

/-- C10 witness: the reset dichotomy at the initial two-player state and
the single-1 hold. -/
theorem C10_witness :
    (NewGameState 2).ScoreThisRound ≤ 255 ∧
    (ApplyAction (NewGameState 2) { HeldDiceID := 0, ContinueRolling := true
      }).ScoreThisRound = 0 := by
  refine ⟨by decide, ?_⟩
  exact (C10_farkle_reset (NewGameState 2)
    { HeldDiceID := rollToID (NewRoll [1]), ContinueRolling := true }
    (by decide)).2.2.2.1

/-- C1 counterexample: the total number of distinct roll IDs over sizes
0..6 is not 462 (the sizes 0..6 contribute 1+6+21+56+126+252+462 = 924). -/
theorem C1_counterexample : nDistinctRolls ≠ 462 := by
  rw [nDistinctRolls_eq]
  decide

/-- C1 (amended): the startup enumeration assigns consecutive IDs
`0 .. nDistinctRolls - 1` to the distinct unordered rolls of every dice
count 0..6 (the list of all distinct rolls has no duplicates, IDs
round-trip, and every distinct roll of every size receives an in-range
ID), the empty roll receives ID 0, and the total number of distinct roll
IDs is 924, not 462. -/
theorem C1_roll_ids :
    allRollsList.Nodup ∧
    (∀ i, i < nDistinctRolls → rollToID (rollsByID i) = i) ∧
    (∀ r ∈ allRollsList, rollToID r < nDistinctRolls) ∧
    (∀ n, n ≤ MaxNumDice → ∀ r ∈ distinctRolls n, rollToID r < nDistinctRolls) ∧
    rollToID emptyRoll = 0 ∧
    nDistinctRolls = 924 := by
  refine ⟨allRollsList_nodup, rollToID_rollsByID, rollToID_lt, ?_,
    rollToID_emptyRoll, nDistinctRolls_eq⟩
  intro n hn r hr
  apply rollToID_lt
  rw [allRollsList]
  exact List.mem_flatMap.2 ⟨n, List.mem_range.2 (by omega), hr⟩

/-! ### End-game values -/

/-- The winner set of `calcEndGameValue` (players at the highest score). -/
def winnersOf (s : GameState) : List Nat :=
  (List.range s.NumPlayers).filter
    fun player => s.PlayerScores.getD player 0 == s.HighestScore

theorem calcEndGameValue_eq (s : GameState) :
    calcEndGameValue s = (List.range maxNumPlayers).map
      fun i => if i ∈ winnersOf s then 1 / ((winnersOf s).length : ℚ) else 0 := rfl

theorem mem_winnersOf (s : GameState) (p : Nat) :
    p ∈ winnersOf s ↔ p < s.NumPlayers ∧ s.PlayerScores.getD p 0 = s.HighestScore := by
  rw [winnersOf, List.mem_filter, List.mem_range]
  simp

theorem natFold_max_eq (b x : Nat) : (if b < x then x else b) = max b x := by
  rcases Nat.lt_or_ge b x with h | h
  · rw [if_pos h, Nat.max_eq_right (Nat.le_of_lt h)]
  · rw [if_neg (by omega), Nat.max_eq_left h]

theorem natFoldMax_ge_init : ∀ (l : List Nat) (init : Nat),
    init ≤ l.foldl max init := by
  intro l
  induction l with
  | nil => intro init; simp
  | cons x xs ih =>
    intro init
    rw [List.foldl_cons]
    exact le_trans (le_max_left _ _) (ih _)

theorem natFoldMax_ge_mem (l : List Nat) (x : Nat) (h : x ∈ l) :
    ∀ init : Nat, x ≤ l.foldl max init := by
  induction l with
  | nil => simp at h
  | cons y ys ih =>
    intro init
    rcases List.mem_cons.1 h with rfl | hy
    · rw [List.foldl_cons]
      exact le_trans (le_max_right _ _) (natFoldMax_ge_init ys _)
    · rw [List.foldl_cons]
      exact ih hy _

theorem natFoldMax_mem (l : List Nat) : ∀ init : Nat,
    l.foldl max init = init ∨ l.foldl max init ∈ l := by
  induction l with
  | nil => intro init; left; rfl
  | cons x xs ih =>
    intro init
    rw [List.foldl_cons]
    rcases ih (max init x) with h | h
    · rcases Nat.le_total init x with hle | hle
      · right
        rw [h, Nat.max_eq_right hle]
        simp
      · left
        rw [h, Nat.max_eq_left hle]
    · right
      simp [h]

theorem highestScore_foldl (s : GameState) :
    s.HighestScore = (s.PlayerScores.take s.NumPlayers).foldl max 0 := by
  rw [GameState.HighestScore]
  congr 1
  funext b x
  exact natFold_max_eq b x

theorem highestScore_attained (s : GameState) (h1 : 1 ≤ s.NumPlayers)
    (hlen : s.NumPlayers ≤ s.PlayerScores.length) :
    ∃ p, p < s.NumPlayers ∧ s.PlayerScores.getD p 0 = s.HighestScore := by
  have hlen' : (s.PlayerScores.take s.NumPlayers).length = s.NumPlayers := by
    rw [List.length_take]
    omega
  rw [highestScore_foldl]
  rcases natFoldMax_mem (s.PlayerScores.take s.NumPlayers) 0 with h | h
  · refine ⟨0, by omega, ?_⟩
    have h0mem : s.PlayerScores.getD 0 0 ∈ s.PlayerScores.take s.NumPlayers := by
      have h0 : 0 < (s.PlayerScores.take s.NumPlayers).length := by omega
      have : (s.PlayerScores.take s.NumPlayers)[0] = s.PlayerScores.getD 0 0 := by
        rw [List.getElem_take]
        simp [List.getD_eq_getElem?_getD, List.getElem?_eq_getElem (by omega : 0 < s.PlayerScores.length)]
      rw [← this]
      exact List.getElem_mem h0
    have hle := natFoldMax_ge_mem _ _ h0mem 0
    rw [h] at hle ⊢
    omega
  · obtain ⟨i, hi, hv⟩ := List.mem_iff_getElem.1 h
    rw [hlen'] at hi
    refine ⟨i, hi, ?_⟩
    rw [← hv, List.getElem_take]
    simp [List.getD_eq_getElem?_getD, List.getElem?_eq_getElem (by omega : i < s.PlayerScores.length)]

theorem sum_map_boolpred (pred : Nat → Bool) (c : ℚ) : ∀ l : List Nat,
    (l.map fun i => if pred i = true then c else 0).sum =
      ((l.filter pred).length : ℚ) * c := by
  intro l
  induction l with
  | nil => simp
  | cons x xs ih =>
    rw [List.map_cons, List.sum_cons, ih, List.filter_cons]
    by_cases h : pred x = true
    · rw [if_pos h, if_pos h]
      push_cast [List.length_cons]
      ring
    · rw [if_neg h, if_neg h]
      ring

/-- A concrete terminal two-player state: scores 200 and 180. -/
def c5State : GameState :=
  { ScoreThisRound := 0, NumDiceToRoll := 6, NumPlayers := 2,
    PlayerScores := [200, 180, 0, 0] }

/-- C5: at a terminal state the seeded end-game value gives `1/|W|` to
every player tied at the highest score, 0 to everyone else, the first
`NumPlayers` entries sum to 1, and `[200, 180]` with two players yields
`[1, 0, 0, 0]`. -/
theorem C5_endGameValue (s : GameState) (h1 : 1 ≤ s.NumPlayers)
    (h4 : s.NumPlayers ≤ maxNumPlayers)
    (hscores : s.PlayerScores.length = maxNumPlayers)
    (hterm : s.IsGameOver = true) :
    (∀ p, p < s.NumPlayers → s.PlayerScores.getD p 0 = s.HighestScore →
      (calcEndGameValue s).getD p 0 = 1 / ((winnersOf s).length : ℚ)) ∧
    (∀ p, p < s.NumPlayers → s.PlayerScores.getD p 0 ≠ s.HighestScore →
      (calcEndGameValue s).getD p 0 = 0) ∧
    (∀ p, s.NumPlayers ≤ p → (calcEndGameValue s).getD p 0 = 0) ∧
    ((calcEndGameValue s).take s.NumPlayers).sum = 1 ∧
    calcEndGameValue c5State = [1, 0, 0, 0] := by
  have hc5 : calcEndGameValue c5State = [1, 0, 0, 0] := by
    have hw : winnersOf c5State = [0] := by decide
    rw [calcEndGameValue_eq, hw]
    norm_num [maxNumPlayers, List.range_succ]
  have hgetD : ∀ p, (calcEndGameValue s).getD p 0 =
      if p < maxNumPlayers then
        (if p ∈ winnersOf s then 1 / ((winnersOf s).length : ℚ) else 0)
      else 0 := by
    intro p
    rw [calcEndGameValue_eq, map_range_getD]
  refine ⟨?_, ?_, ?_, ?_, hc5⟩
  · intro p hp hv
    rw [hgetD p, if_pos (by omega), if_pos ((mem_winnersOf s p).2 ⟨hp, hv⟩)]
  · intro p hp hv
    rw [hgetD p, if_pos (by omega), if_neg (fun hmem => hv ((mem_winnersOf s p).1 hmem).2)]
  · intro p hp
    rw [hgetD p]
    rcases Nat.lt_or_ge p maxNumPlayers with hlt | hge
    · rw [if_pos hlt, if_neg (fun hmem => by
        have := ((mem_winnersOf s p).1 hmem).1
        omega)]
    · rw [if_neg (by omega)]
  · -- the first NumPlayers entries sum to 1
    rw [calcEndGameValue_eq, ← List.map_take, List.take_range,
      show min s.NumPlayers maxNumPlayers = s.NumPlayers from by omega]
    have hcongr : (List.range s.NumPlayers).map
        (fun i => if i ∈ winnersOf s then 1 / ((winnersOf s).length : ℚ) else 0) =
        (List.range s.NumPlayers).map
        (fun i => if (s.PlayerScores.getD i 0 == s.HighestScore) = true then
          1 / ((winnersOf s).length : ℚ) else 0) := by
      apply List.map_congr_left
      intro i hi
      have hilt : i < s.NumPlayers := List.mem_range.1 hi
      by_cases hmem : i ∈ winnersOf s
      · rw [if_pos hmem, if_pos (by
          have := ((mem_winnersOf s i).1 hmem).2
          simpa using this)]
      · rw [if_neg hmem, if_neg (by
          intro hbeq
          exact hmem ((mem_winnersOf s i).2 ⟨hilt, by simpa using hbeq⟩))]
    rw [hcongr, sum_map_boolpred]
    have hW : (List.range s.NumPlayers).filter
        (fun i => s.PlayerScores.getD i 0 == s.HighestScore) = winnersOf s := rfl
    rw [hW]
    obtain ⟨p, hp, hv⟩ := highestScore_attained s h1 (by omega)
    have hnonempty : p ∈ winnersOf s := (mem_winnersOf s p).2 ⟨hp, hv⟩
    have hpos : 0 < (winnersOf s).length := List.length_pos.2 (fun hnil => by
      rw [hnil] at hnonempty
      simp at hnonempty)
    have hne : ((winnersOf s).length : ℚ) ≠ 0 := Nat.cast_ne_zero.2 (by omega)
    field_simp

theorem C5_witness :
    (1 ≤ c5State.NumPlayers ∧ c5State.NumPlayers ≤ maxNumPlayers ∧
     c5State.PlayerScores.length = maxNumPlayers ∧ c5State.IsGameOver = true) ∧
    ((calcEndGameValue c5State).take c5State.NumPlayers).sum = 1 :=
  ⟨⟨by decide, by decide, by decide, by decide⟩,
   (C5_endGameValue c5State (by decide) (by decide) (by decide) (by decide)).2.2.2.1⟩

/-! ### Weighted rolls (C9) -/

/-- Modelled from the spec: the ordered outcomes of rolling `n` dice one
after another, each die a face in `1..6`.  This is the spec's reference
notion against which `makeWeightedRolls` is compared; the source only ever
stores count arrays. -/
def orderedOutcomes : Nat → List (List Nat)
  | 0 => [[]]
  | n + 1 => (orderedOutcomes n).flatMap fun seq =>
      (List.range numSides).map fun i => seq ++ [i + 1]

theorem newRoll_append_single (seq : List Nat) (d : Nat) :
    NewRoll (seq ++ [d]) = addDie (NewRoll seq) d := by
  rw [NewRoll, List.foldl_append]
  rfl

theorem foldl_addDie_length : ∀ (l : List Nat) (r : Roll),
    (l.foldl addDie r).length = r.length := by
  intro l
  induction l with
  | nil => intro r; rfl
  | cons d t ih =>
    intro r
    rw [List.foldl_cons, ih, addDie_length]

theorem newRoll_length (seq : List Nat) : (NewRoll seq).length = numSides + 1 :=
  foldl_addDie_length seq emptyRoll

theorem makeRolls_eq_map_orderedOutcomes : ∀ n,
    makeRolls n = (orderedOutcomes n).map NewRoll := by
  intro n
  induction n with
  | zero => rfl
  | succ n ih =>
    show (makeRolls n).flatMap _ = _
    rw [ih, orderedOutcomes, List.map_flatMap, List.flatMap_map]
    apply List.flatMap_congr
    intro seq _
    rw [List.map_map]
    apply List.map_congr_left
    intro i _
    show CombineRolls [NewRoll seq, NewRoll [i + 1]] = NewRoll (seq ++ [i + 1])
    rw [combine_single (NewRoll seq) (i + 1) (newRoll_length seq),
      newRoll_append_single]

theorem count_map_eq_countP {α β : Type} [BEq β] (f : α → β) (b : β) :
    ∀ l : List α, (l.map f).count b = l.countP fun a => f a == b := by
  intro l
  induction l with
  | nil => rfl
  | cons x xs ih => simp [List.count_cons, List.countP_cons, ih]

theorem sum_map_div {α : Type} (f : α → ℚ) (c : ℚ) : ∀ l : List α,
    (l.map fun r => f r / c).sum = (l.map f).sum / c := by
  intro l
  induction l with
  | nil => simp
  | cons x xs ih => simp [ih, add_div]

theorem count_eq_of_lawful {α : Type} (i1 i2 : BEq α)
    (h1 : @LawfulBEq α i1) (h2 : @LawfulBEq α i2) (b : α) :
    ∀ l : List α, @List.count α i1 b l = @List.count α i2 b l := by
  intro l
  induction l with
  | nil => rfl
  | cons x xs ih =>
    rw [@List.count_cons α i1, @List.count_cons α i2, ih]
    congr 1
    by_cases hx : x = b
    · subst hx
      rw [show (@BEq.beq α i1 x x) = true from @beq_self_eq_true α i1 h1 x,
        show (@BEq.beq α i2 x x) = true from @beq_self_eq_true α i2 h2 x]
    · have e1 : (@BEq.beq α i1 x b) = false := by
        cases hxb : (@BEq.beq α i1 x b) with
        | false => rfl
        | true => exact absurd (h1.eq_of_beq hxb) hx
      have e2 : (@BEq.beq α i2 x b) = false := by
        cases hxb : (@BEq.beq α i2 x b) with
        | false => rfl
        | true => exact absurd (h2.eq_of_beq hxb) hx
      rw [e1, e2]

theorem weightedRolls_sum_probs (n : Nat) :
    ((makeWeightedRolls n).map Prod.snd).sum = 1 := by
  rw [makeWeightedRolls, List.map_map]
  have hfun : (Prod.snd ∘ fun r : Roll =>
      (r, ((makeRolls n).count r : ℚ) / ((makeRolls n).length : ℚ))) =
      fun r => ((makeRolls n).count r : ℚ) / ((makeRolls n).length : ℚ) := rfl
  rw [hfun, sum_map_div]
  have hcast : ((distinctRolls n).map fun r => ((makeRolls n).count r : ℚ)).sum =
      (((distinctRolls n).map fun r => (makeRolls n).count r).sum : ℚ) := by
    rw [Nat.cast_list_sum, List.map_map]
    rfl
  rw [hcast]
  have hdedup : ((distinctRolls n).map fun r => (makeRolls n).count r).sum =
      (makeRolls n).length := by
    have hmapeq : ((distinctRolls n).map fun r => (makeRolls n).count r) =
        ((makeRolls n).dedup.map fun r =>
          @List.count Roll instBEqOfDecidableEq r (makeRolls n)) := by
      apply List.map_congr_left
      intro r _
      exact count_eq_of_lawful _ _ inferInstance inferInstance r (makeRolls n)
    rw [hmapeq]
    exact List.sum_map_count_dedup_eq_length (makeRolls n)
  rw [hdedup]
  have hlen : ((makeRolls n).length : ℚ) ≠ 0 := by
    rw [makeRolls_length]
    exact Nat.cast_ne_zero.2 (Nat.pos_iff_ne_zero.mp (pow_pos (by decide) n))
  field_simp

/-- C9: every weighted roll of `n` dice carries probability equal to the
number of ordered `n`-die outcomes collapsing to that multiset divided by
`6^n`, and the probabilities over all distinct rolls of size `n` sum to
exactly 1 (the source's float64 arithmetic is modelled exactly by `ℚ`). -/
theorem C9_weightedRolls (n : Nat) (r : Roll) (p : ℚ)
    (hmem : (r, p) ∈ makeWeightedRolls n) :
    p = (((orderedOutcomes n).countP fun seq => NewRoll seq == r : Nat) : ℚ) /
        ((numSides : ℚ) ^ n) ∧
    ((makeWeightedRolls n).map Prod.snd).sum = 1 := by
  refine ⟨?_, weightedRolls_sum_probs n⟩
  obtain ⟨r', hr', heq⟩ := List.mem_map.1 hmem
  have h1 : r' = r := congrArg Prod.fst heq
  have h2 : ((makeRolls n).count r' : ℚ) / ((makeRolls n).length : ℚ) = p :=
    congrArg Prod.snd heq
  subst h1
  rw [← h2]
  have hcount : (makeRolls n).count r' =
      (orderedOutcomes n).countP fun seq => NewRoll seq == r' := by
    rw [makeRolls_eq_map_orderedOutcomes, count_map_eq_countP]
  rw [hcount, makeRolls_length]
  push_cast
  ring

theorem C9_witness :
    ((NewRoll [1, 1],
        ((makeRolls 2).count (NewRoll [1, 1]) : ℚ) / ((makeRolls 2).length : ℚ)) ∈
      makeWeightedRolls 2) ∧
    ((makeRolls 2).count (NewRoll [1, 1]) : ℚ) / ((makeRolls 2).length : ℚ) =
      (((orderedOutcomes 2).countP fun seq => NewRoll seq == NewRoll [1, 1] : Nat) : ℚ) /
        ((numSides : ℚ) ^ 2) ∧
    ((makeWeightedRolls 2).map Prod.snd).sum = 1 := by
  have hdedup : NewRoll [1, 1] ∈ distinctRolls 2 := by decide
  have hmem : (NewRoll [1, 1],
      ((makeRolls 2).count (NewRoll [1, 1]) : ℚ) / ((makeRolls 2).length : ℚ)) ∈
        makeWeightedRolls 2 :=
    List.mem_map.2 ⟨NewRoll [1, 1], hdedup, rfl⟩
  obtain ⟨hp, hsum⟩ := C9_weightedRolls 2 _ _ hmem
  exact ⟨hmem, hp, hsum⟩

/-! ### Game-state IDs (C2) -/

/-- A legal game state: player count in 1..4, dice to roll in 1..6, the
score array at its fixed length 4 with every field (and the round score)
fitting in a u8. -/
def LegalState (gs : GameState) : Prop :=
  1 ≤ gs.NumPlayers ∧ gs.NumPlayers ≤ maxNumPlayers ∧
  1 ≤ gs.NumDiceToRoll ∧ gs.NumDiceToRoll ≤ MaxNumDice ∧
  gs.PlayerScores.length = maxNumPlayers ∧
  (∀ sc ∈ gs.PlayerScores, sc ≤ 255) ∧
  gs.ScoreThisRound ≤ 255

instance (gs : GameState) : Decidable (LegalState gs) := by
  unfold LegalState
  infer_instance

theorem list4_explicit (l : List Nat) (h : l.length = maxNumPlayers) :
    ∃ a b c d : Nat, l = [a, b, c, d] := by
  match l, h with
  | [a, b, c, d], _ => exact ⟨a, b, c, d, rfl⟩

theorem foldl_add_eq_sum (f : Nat → Nat) : ∀ (l : List Nat) (acc : Nat),
    l.foldl (fun idx i => idx + f i) acc = acc + (l.map f).sum := by
  intro l
  induction l with
  | nil => intro acc; simp
  | cons x xs ih =>
    intro acc
    rw [List.foldl_cons, ih, List.map_cons, List.sum_cons]
    omega

theorem gameState_ID_eq (s : GameState) :
    s.ID = (s.NumDiceToRoll - 1) * 2 ^ ((s.NumPlayers + 1) * numScoreBits)
      + ((List.range s.NumPlayers).map fun i =>
          s.PlayerScores.getD i 0 * 2 ^ ((s.NumPlayers - i) * numScoreBits)).sum
      + s.ScoreThisRound := by
  rw [GameState.ID, foldl_add_eq_sum
    (fun i => s.PlayerScores.getD i 0 <<< ((s.NumPlayers - i) * numScoreBits))]
  simp only [Nat.shiftLeft_eq]

/-- C2: on legal states the packed ID equals the shifted-digit formula,
lies below `calcNumDistinctStates`, and at a fixed player count determines
the dice count, the round score and every represented player score. -/
theorem C2_stateID (s t : GameState) (hs : LegalState s) (ht : LegalState t)
    (hnp : t.NumPlayers = s.NumPlayers) :
    (s.ID = (s.NumDiceToRoll - 1) * 2 ^ ((s.NumPlayers + 1) * numScoreBits)
      + ((List.range s.NumPlayers).map fun i =>
          s.PlayerScores.getD i 0 * 2 ^ ((s.NumPlayers - i) * numScoreBits)).sum
      + s.ScoreThisRound) ∧
    s.ID < calcNumDistinctStates s.NumPlayers ∧
    (s.ID = t.ID →
      s.NumDiceToRoll = t.NumDiceToRoll ∧ s.ScoreThisRound = t.ScoreThisRound ∧
      ∀ i, i < s.NumPlayers →
        s.PlayerScores.getD i 0 = t.PlayerScores.getD i 0) := by
  obtain ⟨hn1, hn4, hd1, hd6, hlen, hscb, hrb⟩ := hs
  obtain ⟨hn1t, hn4t, hd1t, hd6t, hlent, hscbt, hrbt⟩ := ht
  obtain ⟨a, b, c, d, hsl⟩ := list4_explicit s.PlayerScores hlen
  obtain ⟨a2, b2, c2, d2, htl⟩ := list4_explicit t.PlayerScores hlent
  have ha : a ≤ 255 := hscb a (by rw [hsl]; simp)
  have hb : b ≤ 255 := hscb b (by rw [hsl]; simp)
  have hc : c ≤ 255 := hscb c (by rw [hsl]; simp)
  have hd : d ≤ 255 := hscb d (by rw [hsl]; simp)
  have ha2 : a2 ≤ 255 := hscbt a2 (by rw [htl]; simp)
  have hb2 : b2 ≤ 255 := hscbt b2 (by rw [htl]; simp)
  have hc2 : c2 ≤ 255 := hscbt c2 (by rw [htl]; simp)
  have hd2 : d2 ≤ 255 := hscbt d2 (by rw [htl]; simp)
  have hd6x : s.NumDiceToRoll ≤ 6 := hd6
  have hd6tx : t.NumDiceToRoll ≤ 6 := hd6t
  refine ⟨gameState_ID_eq s, ?_, ?_⟩
  · rw [gameState_ID_eq s, calcNumDistinctStates, Nat.shiftLeft_eq, hsl]
    obtain ⟨n, hne⟩ : ∃ n, s.NumPlayers = n := ⟨_, rfl⟩
    rw [hne] at hn1 hn4 ⊢
    have hn4x : n ≤ 4 := hn4
    interval_cases n <;>
      (simp only [List.range_succ, List.range_zero, List.map_append,
        List.map_cons, List.map_nil, List.sum_append, List.sum_cons,
        List.sum_nil, List.getD_cons_zero, List.getD_cons_succ,
        numScoreBits, MaxNumDice]
       norm_num
       omega)
  · intro hid
    rw [gameState_ID_eq s, gameState_ID_eq t, hnp, hsl, htl] at hid
    obtain ⟨n, hne⟩ : ∃ n, s.NumPlayers = n := ⟨_, rfl⟩
    rw [hne] at hid hn1 hn4 ⊢
    have hn4x : n ≤ 4 := hn4
    interval_cases n <;>
      (simp only [List.range_succ, List.range_zero, List.map_append,
        List.map_cons, List.map_nil, List.sum_append, List.sum_cons,
        List.sum_nil, List.getD_cons_zero, List.getD_cons_succ,
        numScoreBits] at hid
       norm_num at hid
       refine ⟨by omega, by omega, ?_⟩
       intro i hi
       rw [hsl, htl]
       interval_cases i <;>
         (simp only [List.getD_cons_zero, List.getD_cons_succ]
          omega))

/-- A concrete legal three-dice two-player state. -/
def c2s : GameState :=
  { ScoreThisRound := 10, NumDiceToRoll := 3, NumPlayers := 2,
    PlayerScores := [5, 7, 0, 0] }

/-- A second concrete legal two-player state. -/
def c2t : GameState :=
  { ScoreThisRound := 11, NumDiceToRoll := 3, NumPlayers := 2,
    PlayerScores := [5, 6, 0, 0] }

theorem C2_witness :
    (LegalState c2s ∧ LegalState c2t ∧ c2t.NumPlayers = c2s.NumPlayers) ∧
    c2s.ID < calcNumDistinctStates c2s.NumPlayers :=
  ⟨⟨by decide, by decide, rfl⟩,
   (C2_stateID c2s c2t (by decide) (by decide) rfl).2.1⟩

/-! ### First-on-board rule (C6) -/

theorem foldl_preserves {α β : Type} (P : β → Prop) (f : β → α → β)
    (hstep : ∀ x y, P x → P (f x y)) :
    ∀ (l : List α) (init : β), P init → P (l.foldl f init) := by
  intro l
  induction l with
  | nil => intro init h; exact h
  | cons x xs ih => intro init h; exact ih _ (hstep _ _ h)

theorem tweakAction_heldDiceID (s : GameState) (a : GameAction) :
    (tweakAction s a).HeldDiceID = a.HeldDiceID := by
  rw [tweakAction]
  split
  · rfl
  · rfl

theorem potentialAction_heldDiceID_ne_zero (id : Nat) (a : GameAction)
    (ha : a ∈ rollIDToPotentialActions id) : a.HeldDiceID ≠ 0 := by
  obtain ⟨h, hh, heq⟩ := mem_potentialActions id a ha
  obtain ⟨hlen, h0, _⟩ := rollsByID_props id
  obtain ⟨_, _, _, _, _, hpos⟩ := potentialHolds_sound (rollsByID id) hlen h0 h hh
  have hne : h ≠ emptyRoll := by
    intro hcon
    rw [hcon] at hpos
    have : NumDice emptyRoll = 0 := by simp [NumDice, emptyRoll]
    omega
  have := rollToID_pos_of_ne_empty h hne
  omega

/-- C6: with the current player not yet on the board, a stop action that
would bank less than `500/incr = 10` is skipped: it is filtered out of the
legal actions the enumerator expands, and the `SelectAction` fold never
adopts it as the best action. -/
theorem C6_firstOnBoard (s : GameState) (rollID : Nat) (db : Nat → List ℚ)
    (a : GameAction) (ha : a ∈ rollIDToPotentialActions rollID)
    (hs0 : s.PlayerScores.getD 0 0 = 0)
    (hcont : (tweakAction s a).ContinueRolling = false)
    (hslot : (ApplyAction s (tweakAction s a)).PlayerScores.getD
      (s.NumPlayers - 1) 0 < 500 / incr) :
    (SelectAction s rollID db).1 ≠ tweakAction s a ∧
    tweakAction s a ∉ legalActionsForRoll s rollID ∧
    500 / incr = 10 := by
  have hskip : skipAction s (tweakAction s a)
      (ApplyAction s (tweakAction s a)) = true := by
    simp only [skipAction, hcont, Bool.not_false, Bool.and_true,
      Bool.and_eq_true, beq_iff_eq, decide_eq_true_eq]
    exact ⟨hs0, hslot⟩
  have hbne : (tweakAction s a).HeldDiceID ≠ 0 := by
    rw [tweakAction_heldDiceID]
    exact potentialAction_heldDiceID_ne_zero rollID a ha
  refine ⟨?_, ?_, by decide⟩
  · have hfold : ((rollIDToPotentialActions rollID).foldl
        (fun (best : GameAction × List ℚ) action0 =>
          let action := tweakAction s action0
          let newState := ApplyAction s action
          if skipAction s action newState then best
          else
            let pSub := db newState.ID
            let pSubtree :=
              if action.ContinueRolling then pSub
              else unrotate pSub s.NumPlayers
            if best.2.getD 0 0 < pSubtree.getD 0 0 then (action, pSubtree)
            else best)
        ({ HeldDiceID := 0, ContinueRolling := false },
          List.replicate maxNumPlayers 0)).1 ≠ tweakAction s a := by
      apply foldl_preserves
        (fun best : GameAction × List ℚ => best.1 ≠ tweakAction s a)
      · intro x y hx
        by_cases hby : tweakAction s y = tweakAction s a
        · simp only [hby, hskip]
          simpa using hx
        · simp only []
          split
          · exact hx
          · split
            · split
              · exact hby
              · exact hx
            · split
              · exact hby
              · exact hx
      · intro hcon
        apply hbne
        rw [← hcon]
    rw [SelectAction]
    by_cases he : (rollIDToPotentialActions rollID).isEmpty
    · simpa [he] using hfold
    · simpa [he] using hfold
  · intro hmem
    rw [legalActionsForRoll, List.mem_filter] at hmem
    rw [hskip] at hmem
    simp at hmem

/-- A two-player state with the current player not yet on the board and a
single die to roll. -/
def c6State : GameState :=
  { ScoreThisRound := 0, NumDiceToRoll := 1, NumPlayers := 2,
    PlayerScores := [0, 30, 0, 0] }

/-- Stopping immediately on a single held 5 (banks only 50 points). -/
def c6Action : GameAction :=
  { HeldDiceID := rollToID (NewRoll [5]), ContinueRolling := false }

theorem C6_witness :
    (c6Action ∈ rollIDToPotentialActions (rollToID (NewRoll [5])) ∧
     c6State.PlayerScores.getD 0 0 = 0 ∧
     (tweakAction c6State c6Action).ContinueRolling = false ∧
     (ApplyAction c6State (tweakAction c6State c6Action)).PlayerScores.getD
       (c6State.NumPlayers - 1) 0 < 500 / incr) ∧
    tweakAction c6State c6Action ∉
      legalActionsForRoll c6State (rollToID (NewRoll [5])) :=
  ⟨⟨by decide, by decide, by decide, by decide⟩,
   (C6_firstOnBoard c6State (rollToID (NewRoll [5]))
     (fun _ => List.replicate maxNumPlayers 0) c6Action
     (by decide) (by decide) (by decide) (by decide)).2.1⟩

/-! ### Depth soundness of the enumerator (C4) -/

/-- Marking a state ID as on the DFS stack. -/
def pushStack (σ : EnumSt) (id : Nat) : EnumSt :=
  { σ with inStack := fun i => if i = id then true else σ.inStack i }

/-- One step of the child fold in `enumGo`. -/
def enumFoldF (fuel : Nat) : Nat × EnumSt → GameState → Nat × EnumSt :=
  fun acc c =>
    let r := enumGo fuel c acc.2
    (max acc.1 r.1, r.2)

/-- Finalization of a fully expanded state. -/
def enumFinal (fuel : Nat) (s : GameState) (σ1 : EnumSt) : Nat × EnumSt :=
  let res := (childStates s).foldl (enumFoldF fuel) (0, σ1)
  (res.1 + 1,
    { depthMap := fun i => if i = s.ID then res.1 + 1 else res.2.depthMap i
      inStack := fun i => if i = s.ID then false else res.2.inStack i
      emitted := res.2.emitted ++ [(res.1 + 1, s)] })

theorem enumGo_succ (fuel : Nat) (s : GameState) (σ : EnumSt) :
    enumGo (fuel + 1) s σ =
      if s.IsGameOver then (0, σ)
      else if 0 < σ.depthMap s.ID then (σ.depthMap s.ID, σ)
      else if σ.inStack s.ID then (0, σ)
      else enumFinal fuel s (pushStack σ s.ID) := rfl

/-- The depth-ordering relation over emitted `(depth, state)` pairs: an
earlier-finalized successor forces a strictly larger depth. -/
def depthOrd (p q : Nat × GameState) : Prop :=
  p.2 ∈ childStates q.2 → p.1 + 1 ≤ q.1

/-- Invariant of the traversal state: emitted entries carry their depth-map
value, are nonterminal with positive depth; on-stack IDs are unfinalized;
finalized IDs come from emitted entries; and the emitted order is
depth-sound. -/
def EnumInv (σ : EnumSt) : Prop :=
  (∀ p ∈ σ.emitted, σ.depthMap p.2.ID = p.1 ∧ 1 ≤ p.1 ∧ p.2.IsGameOver = false) ∧
  (∀ id, σ.inStack id = true → σ.depthMap id = 0) ∧
  (∀ id, 0 < σ.depthMap id → ∃ p ∈ σ.emitted, p.2.ID = id) ∧
  List.Pairwise depthOrd σ.emitted

/-- What one call to `enumGo` guarantees: the invariant is preserved, the
emission log grows by a suffix, finalized and on-stack depths persist, the
stack is restored, and every new emission has depth at most the returned
depth. -/
def EnumStep (fuel : Nat) (s : GameState) (σ : EnumSt) : Prop :=
  EnumInv (enumGo fuel s σ).2 ∧
  (∃ Δ, (enumGo fuel s σ).2.emitted = σ.emitted ++ Δ) ∧
  (∀ id, 0 < σ.depthMap id → (enumGo fuel s σ).2.depthMap id = σ.depthMap id) ∧
  (∀ id, σ.inStack id = true → (enumGo fuel s σ).2.depthMap id = σ.depthMap id) ∧
  (∀ id, (enumGo fuel s σ).2.inStack id = σ.inStack id) ∧
  (∀ p ∈ (enumGo fuel s σ).2.emitted, p ∈ σ.emitted ∨ p.1 ≤ (enumGo fuel s σ).1)

/-- What the child fold guarantees, including: the running maximum bounds
the depth of every state of `cs` already emitted when the fold starts, and
of every state emitted during the fold. -/
def EnumFoldStep (fuel : Nat) (cs : List GameState) (acc : Nat × EnumSt) : Prop :=
  EnumInv (cs.foldl (enumFoldF fuel) acc).2 ∧
  (∃ Δ, (cs.foldl (enumFoldF fuel) acc).2.emitted = acc.2.emitted ++ Δ) ∧
  (∀ id, 0 < acc.2.depthMap id →
    (cs.foldl (enumFoldF fuel) acc).2.depthMap id = acc.2.depthMap id) ∧
  (∀ id, acc.2.inStack id = true →
    (cs.foldl (enumFoldF fuel) acc).2.depthMap id = acc.2.depthMap id) ∧
  (∀ id, (cs.foldl (enumFoldF fuel) acc).2.inStack id = acc.2.inStack id) ∧
  acc.1 ≤ (cs.foldl (enumFoldF fuel) acc).1 ∧
  (∀ p ∈ (cs.foldl (enumFoldF fuel) acc).2.emitted,
    p ∈ acc.2.emitted ∨ p.1 ≤ (cs.foldl (enumFoldF fuel) acc).1) ∧
  (∀ p ∈ acc.2.emitted, p.2 ∈ cs → p.1 ≤ (cs.foldl (enumFoldF fuel) acc).1)

/-- A call on an already-emitted state returns its recorded depth and
leaves the traversal state untouched. -/
theorem enumGo_emitted_of_inv (fuel : Nat) (s : GameState) (σ : EnumSt)
    (d : Nat) (hinv : EnumInv σ) (hmem : (d, s) ∈ σ.emitted) :
    enumGo fuel s σ = (d, σ) := by
  obtain ⟨h1, _, _, _⟩ := hinv
  obtain ⟨hdm, hd1, hterm⟩ := h1 (d, s) hmem
  have hdm' : σ.depthMap s.ID = d := hdm
  have hd1' : 1 ≤ d := hd1
  have hterm' : s.IsGameOver = false := hterm
  cases fuel with
  | zero =>
    show (σ.depthMap s.ID, σ) = (d, σ)
    rw [hdm']
  | succ f =>
    rw [enumGo_succ, if_neg (by simp [hterm']),
      if_pos (show 0 < σ.depthMap s.ID by omega), hdm']

theorem enumFold_sound (fuel : Nat)
    (hrec : ∀ (s : GameState) (σ : EnumSt), EnumInv σ → EnumStep fuel s σ) :
    ∀ (cs : List GameState) (acc : Nat × EnumSt),
      EnumInv acc.2 → EnumFoldStep fuel cs acc := by
  intro cs
  induction cs with
  | nil =>
    intro acc hinv
    exact ⟨hinv, ⟨[], by simp⟩, fun id _ => rfl, fun id _ => rfl, fun id => rfl,
      le_refl _, fun p hp => Or.inl hp, fun p _ hmem => absurd hmem (List.not_mem_nil _)⟩
  | cons c rest ih =>
    intro acc hinv
    obtain ⟨sInv, ⟨Δ1, sΔ⟩, sPers, sStackPers, sStack, sP2⟩ := hrec c acc.2 hinv
    have hinv' : EnumInv (enumFoldF fuel acc c).2 := sInv
    obtain ⟨rInv, ⟨Δ2, rΔ⟩, rPers, rStackPers, rStack, rMono, rP2, rOld⟩ :=
      ih (enumFoldF fuel acc c) hinv'
    have sΔ' : (enumFoldF fuel acc c).2.emitted = acc.2.emitted ++ Δ1 := sΔ
    have sPers' : ∀ id, 0 < acc.2.depthMap id →
        (enumFoldF fuel acc c).2.depthMap id = acc.2.depthMap id := sPers
    have sStackPers' : ∀ id, acc.2.inStack id = true →
        (enumFoldF fuel acc c).2.depthMap id = acc.2.depthMap id := sStackPers
    have sStack' : ∀ id, (enumFoldF fuel acc c).2.inStack id = acc.2.inStack id :=
      sStack
    have sP2' : ∀ p ∈ (enumFoldF fuel acc c).2.emitted,
        p ∈ acc.2.emitted ∨ p.1 ≤ (enumGo fuel c acc.2).1 := sP2
    have hr_le : (enumGo fuel c acc.2).1 ≤ (enumFoldF fuel acc c).1 :=
      le_max_right _ _
    have hacc_le : acc.1 ≤ (enumFoldF fuel acc c).1 := le_max_left _ _
    have hfoldc : (c :: rest).foldl (enumFoldF fuel) acc =
        rest.foldl (enumFoldF fuel) (enumFoldF fuel acc c) := List.foldl_cons _ _
    unfold EnumFoldStep
    rw [hfoldc]
    refine ⟨rInv, ⟨Δ1 ++ Δ2, ?_⟩, ?_, ?_, ?_, ?_, ?_, ?_⟩
    · rw [rΔ, sΔ', List.append_assoc]
    · intro id h
      have h1 : (enumFoldF fuel acc c).2.depthMap id = acc.2.depthMap id :=
        sPers' id h
      have h2 : (rest.foldl (enumFoldF fuel) (enumFoldF fuel acc c)).2.depthMap id =
          (enumFoldF fuel acc c).2.depthMap id := rPers id (by omega)
      omega
    · intro id h
      have hst : (enumFoldF fuel acc c).2.inStack id = true := by
        rw [sStack' id]
        exact h
      have h1 : (enumFoldF fuel acc c).2.depthMap id = acc.2.depthMap id :=
        sStackPers' id h
      have h2 : (rest.foldl (enumFoldF fuel) (enumFoldF fuel acc c)).2.depthMap id =
          (enumFoldF fuel acc c).2.depthMap id := rStackPers id hst
      omega
    · intro id
      rw [rStack id, sStack' id]
    · exact le_trans hacc_le rMono
    · intro p hp
      rcases rP2 p hp with hin | hle
      · rcases sP2' p hin with hin' | hle'
        · exact Or.inl hin'
        · exact Or.inr (le_trans hle' (le_trans hr_le rMono))
      · exact Or.inr hle
    · intro p hp hmem
      rcases List.mem_cons.1 hmem with heq | hmemr
      · have hpc : (p.1, c) ∈ acc.2.emitted := by
          rw [← heq]
          simpa using hp
        have hcall : enumGo fuel c acc.2 = (p.1, acc.2) :=
          enumGo_emitted_of_inv fuel c acc.2 p.1 hinv hpc
        have : (enumGo fuel c acc.2).1 = p.1 := by rw [hcall]
        omega
      · apply rOld p ?_ hmemr
        rw [sΔ']
        exact List.mem_append_left _ hp

theorem enumGo_sound : ∀ (fuel : Nat) (s : GameState) (σ : EnumSt),
    EnumInv σ → EnumStep fuel s σ := by
  intro fuel
  induction fuel with
  | zero =>
    intro s σ hinv
    exact ⟨hinv, ⟨[], (List.append_nil _).symm⟩, fun id _ => rfl, fun id _ => rfl,
      fun id => rfl, fun p hp => Or.inl hp⟩
  | succ fuel ih =>
    intro s σ hinv
    by_cases hterm : s.IsGameOver = true
    · have heq : enumGo (fuel + 1) s σ = (0, σ) := by
        rw [enumGo_succ, if_pos hterm]
      unfold EnumStep
      rw [heq]
      exact ⟨hinv, ⟨[], by simp⟩, fun id _ => rfl, fun id _ => rfl, fun id => rfl,
        fun p hp => Or.inl hp⟩
    · by_cases hdm : 0 < σ.depthMap s.ID
      · have heq : enumGo (fuel + 1) s σ = (σ.depthMap s.ID, σ) := by
          rw [enumGo_succ, if_neg hterm, if_pos hdm]
        unfold EnumStep
        rw [heq]
        exact ⟨hinv, ⟨[], by simp⟩, fun id _ => rfl, fun id _ => rfl, fun id => rfl,
          fun p hp => Or.inl hp⟩
      · by_cases hstk : σ.inStack s.ID = true
        · have heq : enumGo (fuel + 1) s σ = (0, σ) := by
            rw [enumGo_succ, if_neg hterm, if_neg hdm, if_pos hstk]
          unfold EnumStep
          rw [heq]
          exact ⟨hinv, ⟨[], by simp⟩, fun id _ => rfl, fun id _ => rfl, fun id => rfl,
            fun p hp => Or.inl hp⟩
        · -- full expansion
          have hterm0 : s.IsGameOver = false := by
            simp at hterm
            exact hterm
          have hdm0 : σ.depthMap s.ID = 0 := by omega
          have hstk0 : σ.inStack s.ID = false := by
            simp at hstk
            exact hstk
          have hinv1 : EnumInv (pushStack σ s.ID) := by
            obtain ⟨h1, h2, h3, h4⟩ := hinv
            refine ⟨h1, ?_, h3, h4⟩
            intro id hid
            by_cases hids : id = s.ID
            · rw [hids]
              exact hdm0
            · apply h2
              have : (pushStack σ s.ID).inStack id = σ.inStack id := by
                show (if id = s.ID then true else σ.inStack id) = σ.inStack id
                rw [if_neg hids]
              rw [← this]
              exact hid
          obtain ⟨M, σF, hMF⟩ :
              ∃ M σF, (childStates s).foldl (enumFoldF fuel) (0, pushStack σ s.ID)
                = (M, σF) := ⟨_, _, rfl⟩
          have hfold := enumFold_sound fuel ih (childStates s) (0, pushStack σ s.ID)
            hinv1
          unfold EnumFoldStep at hfold
          rw [hMF] at hfold
          obtain ⟨fInv, ⟨Δ, fΔ⟩, fPers, fStackPers, fStack, _, fP2, fOld⟩ := hfold
          have fInv' : EnumInv σF := fInv
          have fΔ' : σF.emitted = σ.emitted ++ Δ := fΔ
          have fPers' : ∀ id, 0 < σ.depthMap id → σF.depthMap id = σ.depthMap id :=
            fPers
          have fStackPers' : ∀ id, (pushStack σ s.ID).inStack id = true →
              σF.depthMap id = σ.depthMap id := fStackPers
          have fStack' : ∀ id, σF.inStack id = (pushStack σ s.ID).inStack id := fStack
          have fP2' : ∀ p ∈ σF.emitted, p ∈ σ.emitted ∨ p.1 ≤ M := fP2
          have fOld' : ∀ p ∈ σ.emitted, p.2 ∈ childStates s → p.1 ≤ M := fOld
          have hpush_at : ∀ id, (pushStack σ s.ID).inStack id =
              (if id = s.ID then true else σ.inStack id) := fun id => rfl
          have hF_dM_sID : σF.depthMap s.ID = 0 := by
            have := fStackPers' s.ID (by rw [hpush_at]; simp)
            omega
          have hNoSID : ∀ p ∈ σF.emitted, p.2.ID ≠ s.ID := by
            intro p hp hcon
            obtain ⟨hdm_p, hd1_p, _⟩ := fInv'.1 p hp
            rw [hcon] at hdm_p
            omega
          have heq : enumGo (fuel + 1) s σ =
              (M + 1,
                { depthMap := fun i => if i = s.ID then M + 1 else σF.depthMap i
                  inStack := fun i => if i = s.ID then false else σF.inStack i
                  emitted := σF.emitted ++ [(M + 1, s)] }) := by
            rw [enumGo_succ, if_neg hterm, if_neg hdm, if_neg hstk]
            unfold enumFinal
            rw [hMF]
          unfold EnumStep
          rw [heq]
          refine ⟨⟨?_, ?_, ?_, ?_⟩, ⟨Δ ++ [(M + 1, s)], ?_⟩, ?_, ?_, ?_, ?_⟩
          · -- Inv1
            intro p hp
            rcases List.mem_append.1 hp with hpF | hpNew
            · obtain ⟨hdm_p, hd1_p, hterm_p⟩ := fInv'.1 p hpF
              refine ⟨?_, hd1_p, hterm_p⟩
              show (if p.2.ID = s.ID then M + 1 else σF.depthMap p.2.ID) = p.1
              rw [if_neg (hNoSID p hpF)]
              exact hdm_p
            · have hpNew' : p = (M + 1, s) := by simpa using hpNew
              rw [hpNew']
              refine ⟨?_, by omega, hterm0⟩
              show (if s.ID = s.ID then M + 1 else σF.depthMap s.ID) = M + 1
              rw [if_pos rfl]
          · -- Inv2
            intro id hid
            have hid' : (if id = s.ID then false else σF.inStack id) = true := hid
            by_cases hids : id = s.ID
            · rw [if_pos hids] at hid'
              exact absurd hid' (by simp)
            · rw [if_neg hids] at hid'
              have hσ : σ.inStack id = true := by
                have := fStack' id
                rw [hpush_at, if_neg hids] at this
                rw [← this]
                exact hid'
              have hz : σ.depthMap id = 0 := hinv.2.1 id hσ
              have : σF.depthMap id = σ.depthMap id := by
                apply fStackPers'
                rw [hpush_at, if_neg hids]
                exact hσ
              show (if id = s.ID then M + 1 else σF.depthMap id) = 0
              rw [if_neg hids]
              omega
          · -- Inv3
            intro id hid
            by_cases hids : id = s.ID
            · exact ⟨(M + 1, s), List.mem_append_right _ (by simp), hids ▸ rfl⟩
            · have hid2 : 0 < (if id = s.ID then M + 1 else σF.depthMap id) := hid
              have hid' : 0 < σF.depthMap id := by
                rw [if_neg hids] at hid2
                exact hid2
              obtain ⟨p, hp, hpid⟩ := fInv'.2.2.1 id hid'
              exact ⟨p, List.mem_append_left _ hp, hpid⟩
          · -- Pairwise
            rw [List.pairwise_append]
            refine ⟨fInv'.2.2.2, List.pairwise_singleton _ _, ?_⟩
            intro p hp q hq
            have hq' : q = (M + 1, s) := by simpa using hq
            rw [hq']
            intro hchild
            have hle : p.1 ≤ M := by
              rcases fP2' p hp with hin | hle
              · exact fOld' p hin hchild
              · exact hle
            omega
          · -- emitted extension
            show σF.emitted ++ [(M + 1, s)] = σ.emitted ++ (Δ ++ [(M + 1, s)])
            rw [fΔ', List.append_assoc]
          · -- nonzero persistence
            intro id h
            have hids : id ≠ s.ID := by
              intro hcon
              rw [hcon] at h
              omega
            show (if id = s.ID then M + 1 else σF.depthMap id) = σ.depthMap id
            rw [if_neg hids]
            exact fPers' id h
          · -- stack persistence
            intro id h
            have hids : id ≠ s.ID := by
              intro hcon
              rw [hcon] at h
              rw [h] at hstk0
              exact absurd hstk0 (by simp)
            show (if id = s.ID then M + 1 else σF.depthMap id) = σ.depthMap id
            rw [if_neg hids]
            apply fStackPers'
            rw [hpush_at, if_neg hids]
            exact h
          · -- stack restored
            intro id
            show (if id = s.ID then false else σF.inStack id) = σ.inStack id
            by_cases hids : id = s.ID
            · rw [if_pos hids, hids, hstk0]
            · rw [if_neg hids]
              have := fStack' id
              rw [hpush_at, if_neg hids] at this
              exact this
          · -- depth bound on emissions
            intro p hp
            rcases List.mem_append.1 hp with hpF | hpNew
            · rcases fP2' p hpF with hin | hle
              · exact Or.inl hin
              · exact Or.inr (by omega)
            · have hpNew' : p = (M + 1, s) := by simpa using hpNew
              exact Or.inr (by rw [hpNew'])

theorem initEnumSt_inv : EnumInv initEnumSt := by
  refine ⟨?_, ?_, ?_, List.Pairwise.nil⟩
  · intro p hp
    exact absurd hp (List.not_mem_nil p)
  · intro id h
    exact absurd h (by simp [initEnumSt])
  · intro id h
    exact absurd h (by simp [initEnumSt])

/-- C4: the enumerator's depth declarations are sound: terminal states are
answered with depth 0; every emitted state is nonterminal, carries its
final depth-map entry of at least 1; and along the emission (that is,
finalization) order every already-finalized successor reachable by one
legal (roll, action) transition — including the farkle transition — forces
a strictly larger depth, so each declared depth is at least 1 plus the
maximum depth finalized for any successor up to that point (on-stack
successors are finalized only later, as the spec's caveat notes). -/
theorem C4_depthSoundness (numPlayers fuel : Nat) :
    (∀ (f : Nat) (s : GameState) (σ : EnumSt), s.IsGameOver = true →
      enumGo (f + 1) s σ = (0, σ)) ∧
    (∀ p ∈ allGameStatesList numPlayers fuel,
      p.2.IsGameOver = false ∧ 1 ≤ p.1 ∧
      (enumGo fuel (NewGameState numPlayers) initEnumSt).2.depthMap p.2.ID = p.1) ∧
    List.Pairwise depthOrd (allGameStatesList numPlayers fuel) := by
  obtain ⟨gInv, _, _, _, _, _⟩ :=
    enumGo_sound fuel (NewGameState numPlayers) initEnumSt initEnumSt_inv
  refine ⟨?_, ?_, gInv.2.2.2⟩
  · intro f s σ hterm
    rw [enumGo_succ, if_pos hterm]
  · intro p hp
    obtain ⟨h1, h2, h3⟩ := gInv.1 p hp
    exact ⟨h3, h2, h1⟩

/-- A concrete terminal two-player state for the depth-0 conjunct. -/
def c4TermState : GameState :=
  { ScoreThisRound := 0, NumDiceToRoll := 6, NumPlayers := 2,
    PlayerScores := [210, 120, 0, 0] }

theorem C4_witness :
    c4TermState.IsGameOver = true ∧
    enumGo 1 c4TermState initEnumSt = (0, initEnumSt) ∧
    List.Pairwise depthOrd (allGameStatesList 2 0) :=
  ⟨by decide,
   (C4_depthSoundness 2 0).1 0 c4TermState initEnumSt (by decide),
   (C4_depthSoundness 2 0).2.2⟩
